import Mathlib

/-!
Verification of the queens-map-generator core: a shallow embedding of the
Cython sources `solver_cy.pyx` (pruned placement counting) and
`generator_cy.pyx` (randomized n-queens search, region partitioning,
connectivity check, grid comparison), together with proofs of the
specification claims about them.

Machine integers are modelled by `Nat`/`Int`.  The C `uint32_t` column
bitmask is modelled by an unbounded `Nat`; this is exact for board sizes
`n ≤ 32` (no shift reaches the 32-bit width), which covers the spec's
stated practical domain `4 ≤ n ≤ 17`.  The fixed 128-entry C array
`used_blocks` is modelled by a `List Bool` of length 128; an index outside
the list yields `none`, marking the out-of-bounds (undefined-behaviour)
access of the C code — the code has no error path of its own.
Randomness (`random.shuffle`, `random.random`, `random.choice`) is
modelled by oracle parameters quantified over all outcomes.
-/

set_option maxRecDepth 8000

namespace QueensMap

/-- A region grid: the Python 2D list of C `int` region identifiers. -/
abbrev Grid := List (List Int)

/-!
## Solver: `solver_cy.pyx`

`_backtrack(row, n, used_cols, last_col, grid_arr, threshold, used_blocks)`
is embedded as `btk` (recursion over rows, driven by `fuel = n - row`) and
`btkLoop` (the `for col in range(n)` loop of one call frame).  The
`used_blocks` C array is threaded in and out so that the
mutate-then-restore discipline of the source is visible in the result; a
returned `none` marks an out-of-bounds `used_blocks` read (undefined
behaviour in the C code, which compiles with `boundscheck=False`).
-/

/-- Column loop of one `_backtrack` frame.  For each candidate column:
skip if its bit is set in `usedCols` (`used_cols & (1 << col)`), skip if
`row > 0 and ABS(last_col - col) <= 1`, read `block_id = grid_arr[row, col]`,
skip if `used_blocks[block_id]` is set, otherwise set the block, recurse
with budget `threshold - count`, restore the block, and return early once
`count > threshold`.  `recurse` is the call into the next row. -/
def btkLoop (usedCols : Nat) (row : Nat) (lastCol : Int) (gridRow : List Int)
    (threshold : Int)
    (recurse : Nat → Int → Int → List Bool → Option (Int × List Bool)) :
    List Nat → Int → List Bool → Option (Int × List Bool)
  | [], count, usedBlocks => some (count, usedBlocks)
  | col :: rest, count, usedBlocks =>
    if usedCols &&& (1 <<< col) ≠ 0 then
      btkLoop usedCols row lastCol gridRow threshold recurse rest count usedBlocks
    else if 0 < row ∧ (lastCol - (col : Int)).natAbs ≤ 1 then
      btkLoop usedCols row lastCol gridRow threshold recurse rest count usedBlocks
    else
      match gridRow[col]? with
      | none => none
      | some blockId =>
        if blockId < 0 then none
        else
          match usedBlocks[blockId.toNat]? with
          | none => none
          | some used =>
            if used then
              btkLoop usedCols row lastCol gridRow threshold recurse rest count usedBlocks
            else
              match recurse (usedCols ||| (1 <<< col)) (col : Int) (threshold - count)
                  (usedBlocks.set blockId.toNat true) with
              | none => none
              | some (cnt, ub) =>
                let count' := count + cnt
                let ub' := ub.set blockId.toNat false
                if threshold < count' then some (count', ub')
                else btkLoop usedCols row lastCol gridRow threshold recurse rest count' ub'

/-- Embedding of `_backtrack`.  `fuel = n - row` counts the remaining rows,
so `fuel = 0` is the `row == n` base case returning one solution. -/
def btk (grid : Grid) (n : Nat) :
    Nat → Nat → Nat → Int → Int → List Bool → Option (Int × List Bool)
  | 0, _row, _usedCols, _lastCol, _threshold, usedBlocks => some (1, usedBlocks)
  | fuel + 1, row, usedCols, lastCol, threshold, usedBlocks =>
    match grid[row]? with
    | none => none
    | some gridRow =>
      btkLoop usedCols row lastCol gridRow threshold
        (fun uc lc t ub => btk grid n fuel (row + 1) uc lc t ub)
        (List.range n) 0 usedBlocks

/-- Embedding of `count_valid_solutions(color_grid, threshold)`: allocate the
128-entry all-false `used_blocks` table and run
`_backtrack(0, n, 0, -100, grid, threshold, used_blocks)`.  The result is
`none` exactly when the run reads `used_blocks` out of bounds. -/
def count_valid_solutions (color_grid : Grid) (threshold : Int) : Option Int :=
  let n := color_grid.length
  match btk color_grid n n 0 0 (-100) threshold (List.replicate 128 false) with
  | none => none
  | some (result, _) => some result

/-!
### Exact reference counter

`exGo`/`exLoop` are the same recursion with the pruning removed: they
compute the exact number of completions from a given search state.  They
are the yardstick against which the pruned `btk` is measured.
-/

/-- Column loop of the unpruned reference counter; branches that `btk`
turns into `none` (out-of-range reads) contribute nothing here. -/
def exLoop (usedCols : Nat) (row : Nat) (lastCol : Int) (gridRow : List Int)
    (recurse : Nat → Int → List Bool → Nat) :
    List Nat → List Bool → Nat
  | [], _ => 0
  | col :: rest, usedBlocks =>
    if usedCols &&& (1 <<< col) ≠ 0 then
      exLoop usedCols row lastCol gridRow recurse rest usedBlocks
    else if 0 < row ∧ (lastCol - (col : Int)).natAbs ≤ 1 then
      exLoop usedCols row lastCol gridRow recurse rest usedBlocks
    else
      match gridRow[col]? with
      | none => exLoop usedCols row lastCol gridRow recurse rest usedBlocks
      | some blockId =>
        if blockId < 0 then exLoop usedCols row lastCol gridRow recurse rest usedBlocks
        else
          match usedBlocks[blockId.toNat]? with
          | none => exLoop usedCols row lastCol gridRow recurse rest usedBlocks
          | some used =>
            if used then exLoop usedCols row lastCol gridRow recurse rest usedBlocks
            else
              recurse (usedCols ||| (1 <<< col)) (col : Int) (usedBlocks.set blockId.toNat true) +
                exLoop usedCols row lastCol gridRow recurse rest usedBlocks

/-- Exact number of valid completions from a search state (no pruning). -/
def exGo (grid : Grid) (n : Nat) : Nat → Nat → Nat → Int → List Bool → Nat
  | 0, _row, _usedCols, _lastCol, _usedBlocks => 1
  | fuel + 1, row, usedCols, lastCol, usedBlocks =>
    match grid[row]? with
    | none => 0
    | some gridRow =>
      exLoop usedCols row lastCol gridRow
        (fun uc lc ub => exGo grid n fuel (row + 1) uc lc ub)
        (List.range n) usedBlocks

example : count_valid_solutions [[0]] 1 = some 1 := by decide
example : count_valid_solutions [[128]] 1 = none := by decide
example : count_valid_solutions [[0, 0], [0, 0]] 5 = some 0 := by decide
example :
    count_valid_solutions [[0, 1, 2, 3], [4, 5, 6, 7], [8, 9, 10, 11], [12, 13, 14, 15]] 10 =
      some 2 := by decide
example :
    count_valid_solutions [[0, 0, 0, 0], [0, 0, 0, 0], [0, 0, 0, 0], [0, 0, 0, 0]] 10 =
      some 0 := by decide

/-- Row-major list of the coordinates of an `n × n` board. -/
def coords (n : Nat) : List (Nat × Nat) :=
  (List.range n).flatMap (fun i => (List.range n).map (fun j => (i, j)))

/-- Value of cell `p` of a grid (`grid[i][j]` in the source). -/
def cellAt (g : Grid) (p : Nat × Nat) : Int :=
  (g.getD p.1 []).getD p.2 0

/-!
## Search states as functions of the placed prefix

A `_backtrack` state at row `r` is determined by the list `pre` of the
columns placed in rows `0..r-1`: the column bitmask is the or of their
bits, `last_col` is the last placed column (`-100` initially), and the
`used_blocks` table holds the region ids of the cells the prefix visits.
-/

/-- Column-occupancy bitmask of a placed prefix (`used_cols`). -/
def ucOf (pre : List Nat) : Nat :=
  pre.foldl (fun uc c => uc ||| (1 <<< c)) 0

/-- Last placed column of a prefix (`last_col`, initially `-100`). -/
def lcOf (pre : List Nat) : Int :=
  match pre.getLast? with
  | none => -100
  | some c => (c : Int)

/-- Region ids of the cells visited by a placement suffix starting at
`row`: entry `i` is `grid_arr[row + i, xs[i]]`. -/
def blocksFrom (grid : Grid) : Nat → List Nat → List Int
  | _, [] => []
  | row, c :: rest => cellAt grid (row, c) :: blocksFrom grid (row + 1) rest

/-- The `used_blocks` table resulting from marking the regions visited by
a placed prefix in the fresh 128-entry table. -/
def ubOf (grid : Grid) (pre : List Nat) : List Bool :=
  ((blocksFrom grid 0 pre).map Int.toNat).foldl (fun ub b => ub.set b true)
    (List.replicate 128 false)

/-!
## The claim-level count

`ValidPlacement` states the three constraints of the extended ruleset the
way the claim does: pairwise-distinct columns, vertically adjacent rows
at column distance at least 2, and pairwise-distinct region ids.
`listsOfLength k n` enumerates every assignment of one column (below `n`)
to each of `k` rows exactly once, so `Nvalid` is the number of valid
assignments.
-/

/-- Columns of two vertically adjacent rows differ by at least 2. -/
def adjFar (a b : Nat) : Prop := 2 ≤ ((a : Int) - (b : Int)).natAbs

instance (a b : Nat) : Decidable (adjFar a b) :=
  decidable_of_iff (2 ≤ ((a : Int) - (b : Int)).natAbs) Iff.rfl

/-- Executable check of the adjacent-rows constraint along a list. -/
def adjChainB : List Nat → Bool
  | [] => true
  | [_] => true
  | a :: b :: rest => decide (adjFar a b) && adjChainB (b :: rest)

theorem adjChainB_iff : ∀ xs : List Nat, adjChainB xs = true ↔ List.Chain' adjFar xs
  | [] => by simp [adjChainB]
  | [_] => by simp [adjChainB]
  | a :: b :: rest => by
    rw [adjChainB, Bool.and_eq_true, decide_eq_true_iff, List.chain'_cons,
      adjChainB_iff (b :: rest)]

instance (xs : List Nat) : Decidable (List.Chain' adjFar xs) :=
  decidable_of_iff (adjChainB xs = true) (adjChainB_iff xs)

/-- The extended ruleset on a placement, as stated by the specification. -/
def ValidPlacement (grid : Grid) (xs : List Nat) : Prop :=
  xs.Nodup ∧ List.Chain' adjFar xs ∧ (blocksFrom grid 0 xs).Nodup

instance (grid : Grid) (xs : List Nat) : Decidable (ValidPlacement grid xs) :=
  inferInstanceAs
    (Decidable (xs.Nodup ∧ List.Chain' adjFar xs ∧ (blocksFrom grid 0 xs).Nodup))

/-- All lists of `k` columns drawn from `[0, n)`: the assignments of one
column per row for `k` rows. -/
def listsOfLength : Nat → Nat → List (List Nat)
  | 0, _ => [[]]
  | k + 1, n => (List.range n).flatMap (fun c => (listsOfLength k n).map (fun xs => c :: xs))

/-- The true number of placements of the extended ruleset on a grid. -/
def Nvalid (grid : Grid) : Nat :=
  ((listsOfLength grid.length grid.length).filter
    (fun xs => decide (ValidPlacement grid xs))).length

theorem mem_listsOfLength {k n : Nat} {xs : List Nat} :
    xs ∈ listsOfLength k n ↔ xs.length = k ∧ ∀ c ∈ xs, c < n := by
  induction k generalizing xs with
  | zero =>
    simp only [listsOfLength, List.mem_singleton]
    constructor
    · rintro rfl
      simp
    · rintro ⟨h, -⟩
      exact List.eq_nil_of_length_eq_zero h
  | succ k ih =>
    simp only [listsOfLength, List.mem_flatMap, List.mem_map, List.mem_range]
    constructor
    · rintro ⟨c, hc, ys, hys, rfl⟩
      obtain ⟨hlen, hmem⟩ := ih.mp hys
      refine ⟨by simp [hlen], ?_⟩
      intro d hd
      rcases List.mem_cons.mp hd with rfl | hd
      · exact hc
      · exact hmem d hd
    · rintro ⟨hlen, hmem⟩
      match xs with
      | [] => simp at hlen
      | c :: ys =>
        refine ⟨c, hmem c (by simp), ys, ih.mpr ⟨by simpa using hlen, ?_⟩, rfl⟩
        intro d hd
        exact hmem d (List.mem_cons_of_mem c hd)

/-- Each assignment occurs exactly once in the enumeration behind
`Nvalid`. -/
theorem nodup_listsOfLength (k n : Nat) : (listsOfLength k n).Nodup := by
  induction k with
  | zero => simp [listsOfLength]
  | succ k ih =>
    unfold listsOfLength
    have hrange : ∀ m : Nat, (List.range m).Nodup := List.nodup_range
    have : ∀ l : List Nat, l.Nodup →
        (l.flatMap (fun c => (listsOfLength k n).map (fun xs => c :: xs))).Nodup := by
      intro l
      induction l with
      | nil => simp
      | cons c cs ihl =>
        intro hnd
        rw [List.flatMap_cons, List.nodup_append]
        refine ⟨List.Nodup.map List.cons_injective ih,
          ihl (List.Nodup.of_cons hnd), ?_⟩
        intro ys hys hys2
        obtain ⟨zs, hzs, rfl⟩ := List.mem_map.mp hys
        obtain ⟨d, hd, hws⟩ := List.mem_flatMap.mp hys2
        obtain ⟨ws2, hws2, hcons2⟩ := List.mem_map.mp hws
        injection hcons2 with h1 h2
        subst h1
        exact (List.nodup_cons.mp hnd).1 hd
    exact this (List.range n) (hrange n)

/-!
## Characterization of the search state
-/

theorem set_eq_self_of_getElem? {α : Type} :
    ∀ (l : List α) (i : Nat) (a : α), l[i]? = some a → l.set i a = l := by
  intro l
  induction l with
  | nil => intro i a h; simp at h
  | cons x t ih =>
    intro i a h
    cases i with
    | zero =>
      simp only [List.getElem?_cons_zero, Option.some_inj] at h
      simp [h]
    | succ i =>
      simp only [List.getElem?_cons_succ] at h
      simp [ih i a h]

theorem and_shiftLeft_ne_zero (x c : Nat) : x &&& (1 <<< c) ≠ 0 ↔ x.testBit c = true := by
  rw [Nat.shiftLeft_eq, one_mul, Nat.and_two_pow]
  have h2 : (2 : Nat) ^ c ≠ 0 := (Nat.pow_pos (by norm_num)).ne'
  rcases h : x.testBit c <;> simp [h, h2]

theorem testBit_foldl_or (pre : List Nat) :
    ∀ (acc j : Nat),
      (pre.foldl (fun uc c => uc ||| (1 <<< c)) acc).testBit j =
        (acc.testBit j || decide (j ∈ pre)) := by
  induction pre with
  | nil => intro acc j; simp
  | cons c rest ih =>
    intro acc j
    simp only [List.foldl_cons, ih, Nat.testBit_or, List.mem_cons]
    have h2 : (1 <<< c).testBit j = decide (j = c) := by
      rw [Nat.shiftLeft_eq, one_mul]
      by_cases h : c = j
      · subst h
        simp [Nat.testBit_two_pow_self]
      · simp [Nat.testBit_two_pow_of_ne h, Ne.symm h]
    rw [h2]
    by_cases h : j = c <;> by_cases h3 : j ∈ rest <;> simp [h, h3]

theorem ucOf_and_ne (pre : List Nat) (c : Nat) :
    (ucOf pre &&& (1 <<< c) ≠ 0) ↔ c ∈ pre := by
  rw [and_shiftLeft_ne_zero, ucOf, testBit_foldl_or]
  simp

theorem ucOf_append (pre : List Nat) (c : Nat) :
    ucOf (pre ++ [c]) = ucOf pre ||| (1 <<< c) := by
  unfold ucOf
  rw [List.foldl_append]
  rfl

theorem lcOf_append (pre : List Nat) (c : Nat) : lcOf (pre ++ [c]) = (c : Int) := by
  unfold lcOf
  rw [List.getLast?_concat]

theorem blocksFrom_append (grid : Grid) :
    ∀ (a : List Nat) (row : Nat) (b : List Nat),
      blocksFrom grid row (a ++ b) =
        blocksFrom grid row a ++ blocksFrom grid (row + a.length) b := by
  intro a
  induction a with
  | nil => intro row b; simp [blocksFrom]
  | cons x t ih =>
    intro row b
    simp only [List.cons_append, blocksFrom, List.append_eq, ih (row + 1) b,
      List.length_cons]
    have : row + 1 + t.length = row + (t.length + 1) := by omega
    rw [this]

theorem foldlSet_getElem? :
    ∀ (bs : List Nat) (init : List Bool) (i : Nat),
      (bs.foldl (fun u b => u.set b true) init)[i]? =
        if i ∈ bs then (if i < init.length then some true else none) else init[i]? := by
  intro bs
  induction bs with
  | nil => intro init i; simp
  | cons b rest ih =>
    intro init i
    simp only [List.foldl_cons, ih, List.length_set, List.mem_cons]
    by_cases hmem : i ∈ rest
    · simp [hmem]
    · by_cases heq : i = b
      · subst heq
        simp [hmem, List.getElem?_set]
      · simp only [hmem, if_neg, or_false]
        rw [if_neg (by tauto), List.getElem?_set, if_neg (by tauto)]
        simp [heq]

theorem ubOf_getElem? (grid : Grid) (pre : List Nat) (b : Nat) (hb : b < 128) :
    (ubOf grid pre)[b]? =
      if b ∈ (blocksFrom grid 0 pre).map Int.toNat then some true else some false := by
  unfold ubOf
  rw [foldlSet_getElem?, List.length_replicate]
  have hrep : (List.replicate 128 false)[b]? = some false := by
    rw [List.getElem?_replicate, if_pos hb]
  by_cases hmem : b ∈ (blocksFrom grid 0 pre).map Int.toNat
  · simp only [if_pos hmem, if_pos hb]
  · simp only [if_neg hmem]
    exact hrep

theorem foldlSet_length :
    ∀ (bs : List Nat) (init : List Bool),
      (bs.foldl (fun u b => u.set b true) init).length = init.length := by
  intro bs
  induction bs with
  | nil => intro init; rfl
  | cons b rest ih => intro init; rw [List.foldl_cons, ih, List.length_set]

theorem ubOf_length (grid : Grid) (pre : List Nat) : (ubOf grid pre).length = 128 := by
  unfold ubOf
  rw [foldlSet_length, List.length_replicate]

theorem ubOf_append (grid : Grid) (pre : List Nat) (c : Nat) :
    ubOf grid (pre ++ [c]) =
      (ubOf grid pre).set (cellAt grid (pre.length, c)).toNat true := by
  unfold ubOf
  rw [blocksFrom_append grid pre 0 [c]]
  simp [blocksFrom, List.foldl_append]

/-!
## Incremental characterization of `ValidPlacement`
-/

theorem validPlacement_nil (grid : Grid) : ValidPlacement grid [] := by
  refine ⟨List.nodup_nil, List.chain'_nil, ?_⟩
  simp [blocksFrom]

theorem nodup_append_singleton {α : Type} (l : List α) (c : α) :
    (l ++ [c]).Nodup ↔ l.Nodup ∧ c ∉ l := by
  rw [List.nodup_append, List.disjoint_singleton]
  simp

theorem chain'_append_singleton {α : Type} (R : α → α → Prop) (l : List α) (c : α) :
    List.Chain' R (l ++ [c]) ↔ List.Chain' R l ∧ ∀ x ∈ l.getLast?, R x c := by
  rw [List.chain'_append]
  simp

theorem validPlacement_append_singleton (grid : Grid) (pre : List Nat) (c : Nat) :
    ValidPlacement grid (pre ++ [c]) ↔
      ValidPlacement grid pre ∧ c ∉ pre ∧
      (∀ lc ∈ pre.getLast?, adjFar lc c) ∧
      cellAt grid (pre.length, c) ∉ blocksFrom grid 0 pre := by
  unfold ValidPlacement
  rw [blocksFrom_append grid pre 0 [c]]
  simp only [blocksFrom, Nat.zero_add]
  rw [nodup_append_singleton, chain'_append_singleton, nodup_append_singleton]
  tauto

theorem validPlacement_of_append (grid : Grid) (a b : List Nat) :
    ValidPlacement grid (a ++ b) → ValidPlacement grid a := by
  rintro ⟨hn, hc, hb⟩
  rw [blocksFrom_append grid a 0 b] at hb
  exact ⟨(List.nodup_append.mp hn).1, (List.chain'_append.mp hc).1,
    (List.nodup_append.mp hb).1⟩

/-!
## The pruning invariant

`btk` restores the `used_blocks` table on exit, never returns a negative
count, never exceeds the exact count, and is either exact or strictly
above the pruning threshold.
-/

theorem btkLoop_spec
    (usedCols row : Nat) (lastCol : Int) (gridRow : List Int)
    (recurse : Nat → Int → Int → List Bool → Option (Int × List Bool))
    (exRecurse : Nat → Int → List Bool → Nat)
    (hrec : ∀ (uc : Nat) (lc t : Int) (u : List Bool), u.length = 128 →
      ∃ r : Int, recurse uc lc t u = some (r, u) ∧ 0 ≤ r ∧
        r ≤ (exRecurse uc lc u : Int) ∧ (r = (exRecurse uc lc u : Int) ∨ t < r))
    (hvrow : ∀ v ∈ gridRow, 0 ≤ v ∧ v < 128) :
    ∀ (cols : List Nat) (threshold count : Int) (ub : List Bool),
      ub.length = 128 → (∀ c ∈ cols, c < gridRow.length) →
      ∃ r : Int,
        btkLoop usedCols row lastCol gridRow threshold recurse cols count ub =
          some (r, ub) ∧ count ≤ r ∧
        r ≤ count + (exLoop usedCols row lastCol gridRow exRecurse cols ub : Int) ∧
        (r = count + (exLoop usedCols row lastCol gridRow exRecurse cols ub : Int) ∨
          threshold < r) := by
  intro cols
  induction cols with
  | nil =>
    intro threshold count ub hub hcols
    exact ⟨count, rfl, le_refl _, by simp [exLoop], by left; simp [exLoop]⟩
  | cons col rest ih =>
    intro threshold count ub hub hcols
    have hrest : ∀ c ∈ rest, c < gridRow.length :=
      fun c hc => hcols c (List.mem_cons_of_mem col hc)
    by_cases h1 : usedCols &&& (1 <<< col) ≠ 0
    · simpa only [btkLoop, exLoop, if_pos h1] using ih threshold count ub hub hrest
    · by_cases h2 : 0 < row ∧ (lastCol - (col : Int)).natAbs ≤ 1
      · simpa only [btkLoop, exLoop, if_neg h1, if_pos h2] using ih threshold count ub hub hrest
      · have hcol : col < gridRow.length := hcols col (List.mem_cons_self col rest)
        have hsome : gridRow[col]? = some gridRow[col] := List.getElem?_eq_getElem hcol
        obtain ⟨hv0, hv128⟩ := hvrow gridRow[col] (gridRow.getElem_mem hcol)
        have hble : ¬ gridRow[col] < 0 := by omega
        have hblt : gridRow[col].toNat < 128 := by omega
        have hblt' : gridRow[col].toNat < ub.length := by omega
        have hubsome : ub[gridRow[col].toNat]? = some ub[gridRow[col].toNat] :=
          List.getElem?_eq_getElem hblt'
        rcases hused : ub[gridRow[col].toNat] with _ | _
        · -- block unused: recurse into the next row
          have hsetlen : (ub.set gridRow[col].toNat true).length = 128 := by
            rw [List.length_set, hub]
          obtain ⟨cnt, hreceq, hcnt0, hcntle, hcntor⟩ :=
            hrec (usedCols ||| (1 <<< col)) (col : Int) (threshold - count)
              (ub.set gridRow[col].toNat true) hsetlen
          have hrestore : (ub.set gridRow[col].toNat true).set gridRow[col].toNat false = ub := by
            rw [List.set_set]
            exact set_eq_self_of_getElem? ub _ false (by rw [hubsome, hused])
          have hexpand :
              btkLoop usedCols row lastCol gridRow threshold recurse (col :: rest) count ub =
                (if threshold < count + cnt then some (count + cnt, ub)
                 else btkLoop usedCols row lastCol gridRow threshold recurse rest
                   (count + cnt) ub) := by
            simp only [btkLoop, if_neg h1, if_neg h2, hsome, if_neg hble, hubsome, hused,
              Bool.false_eq_true, if_false, hreceq, hrestore]
          have hexpand2 :
              exLoop usedCols row lastCol gridRow exRecurse (col :: rest) ub =
                exRecurse (usedCols ||| (1 <<< col)) (col : Int)
                    (ub.set gridRow[col].toNat true) +
                  exLoop usedCols row lastCol gridRow exRecurse rest ub := by
            simp only [exLoop, if_neg h1, if_neg h2, hsome, if_neg hble, hubsome, hused,
              Bool.false_eq_true, if_false]
          by_cases h3 : threshold < count + cnt
          · refine ⟨count + cnt, ?_, by omega, ?_, Or.inr h3⟩
            · rw [hexpand, if_pos h3]
            · rw [hexpand2]
              push_cast
              omega
          · obtain ⟨r, hreq, hr1, hr2, hr3⟩ := ih threshold (count + cnt) ub hub hrest
            refine ⟨r, ?_, by omega, ?_, ?_⟩
            · rw [hexpand, if_neg h3]
              exact hreq
            · rw [hexpand2]
              push_cast
              omega
            · rcases hr3 with hr3 | hr3
              · rcases hcntor with hcnt | hcnt
                · left
                  rw [hexpand2]
                  push_cast
                  omega
                · exfalso
                  omega
              · exact Or.inr hr3
        · -- block already used: skip
          have hexpand :
              btkLoop usedCols row lastCol gridRow threshold recurse (col :: rest) count ub =
                btkLoop usedCols row lastCol gridRow threshold recurse rest count ub := by
            simp only [btkLoop, if_neg h1, if_neg h2, hsome, if_neg hble, hubsome, hused,
              eq_self_iff_true, if_true]
          have hexpand2 :
              exLoop usedCols row lastCol gridRow exRecurse (col :: rest) ub =
                exLoop usedCols row lastCol gridRow exRecurse rest ub := by
            simp only [exLoop, if_neg h1, if_neg h2, hsome, if_neg hble, hubsome, hused,
              eq_self_iff_true, if_true]
          rw [hexpand, hexpand2]
          exact ih threshold count ub hub hrest

theorem btk_spec (grid : Grid) (n : Nat) (hg : grid.length = n)
    (hrows : ∀ row ∈ grid, row.length = n)
    (hids : ∀ row ∈ grid, ∀ v ∈ row, 0 ≤ v ∧ v < 128) :
    ∀ (fuel row usedCols : Nat) (lastCol threshold : Int) (ub : List Bool),
      row + fuel = n → ub.length = 128 →
      ∃ r : Int, btk grid n fuel row usedCols lastCol threshold ub = some (r, ub) ∧
        0 ≤ r ∧ r ≤ (exGo grid n fuel row usedCols lastCol ub : Int) ∧
        (r = (exGo grid n fuel row usedCols lastCol ub : Int) ∨ threshold < r) := by
  intro fuel
  induction fuel with
  | zero =>
    intro row usedCols lastCol threshold ub hrow hub
    exact ⟨1, rfl, by norm_num, by simp [btk, exGo], by left; simp [btk, exGo]⟩
  | succ fuel ihf =>
    intro row usedCols lastCol threshold ub hrow hub
    have hrlt : row < grid.length := by omega
    have hsome : grid[row]? = some grid[row] := List.getElem?_eq_getElem hrlt
    have hlen : grid[row].length = n := hrows _ (grid.getElem_mem hrlt)
    have hvrow : ∀ v ∈ grid[row], 0 ≤ v ∧ v < 128 := hids _ (grid.getElem_mem hrlt)
    obtain ⟨r, heq, h0, hle, hor⟩ :=
      btkLoop_spec usedCols row lastCol grid[row]
        (fun uc lc t u => btk grid n fuel (row + 1) uc lc t u)
        (fun uc lc u => exGo grid n fuel (row + 1) uc lc u)
        (fun uc lc t u hu => ihf (row + 1) uc lc t u (by omega) hu)
        hvrow (List.range n) threshold 0 ub hub
        (fun c hc => by rw [hlen]; exact List.mem_range.mp hc)
    have hbtk : btk grid n (fuel + 1) row usedCols lastCol threshold ub =
        btkLoop usedCols row lastCol grid[row] threshold
          (fun uc lc t u => btk grid n fuel (row + 1) uc lc t u) (List.range n) 0 ub := by
      simp only [btk, hsome]
    have hex : exGo grid n (fuel + 1) row usedCols lastCol ub =
        exLoop usedCols row lastCol grid[row]
          (fun uc lc u => exGo grid n fuel (row + 1) uc lc u) (List.range n) ub := by
      simp only [exGo, hsome]
    refine ⟨r, by rw [hbtk]; exact heq, by omega, ?_, ?_⟩
    · rw [hex]
      omega
    · rw [hex]
      rcases hor with hor | hor
      · left
        omega
      · exact Or.inr hor

/-!
## The exact counter counts `ValidPlacement` completions
-/

theorem cellAt_eq_getElem {g : Grid} {i j : Nat} (hi : i < g.length)
    (hj : j < (g[i]).length) : cellAt g (i, j) = g[i][j] := by
  show (g.getD i []).getD j 0 = g[i][j]
  rw [List.getD_eq_getElem?_getD g i, List.getElem?_eq_getElem hi]
  simp only [Option.getD_some]
  rw [List.getD_eq_getElem?_getD, List.getElem?_eq_getElem hj]
  rfl

theorem blocksFrom_bounds (grid : Grid) (n : Nat) (hg : grid.length = n)
    (hrows : ∀ row ∈ grid, row.length = n)
    (hids : ∀ row ∈ grid, ∀ v ∈ row, 0 ≤ v ∧ v < 128) :
    ∀ (xs : List Nat) (row : Nat), row + xs.length ≤ n → (∀ c ∈ xs, c < n) →
      ∀ b ∈ blocksFrom grid row xs, 0 ≤ b ∧ b < 128 := by
  intro xs
  induction xs with
  | nil => intro row _ _ b hb; simp [blocksFrom] at hb
  | cons c rest ih =>
    intro row hle hent b hb
    simp only [blocksFrom, List.mem_cons] at hb
    rcases hb with rfl | hb
    · have hrlt : row < grid.length := by simp at hle; omega
      have hclt : c < (grid[row]).length := by
        rw [hrows _ (grid.getElem_mem hrlt)]
        exact hent c (List.mem_cons_self c rest)
      rw [cellAt_eq_getElem hrlt hclt]
      exact hids _ (grid.getElem_mem hrlt) _ ((grid[row]).getElem_mem hclt)
    · exact ih (row + 1) (by simp at hle; omega)
        (fun d hd => hent d (List.mem_cons_of_mem c hd)) b hb

theorem mem_map_toNat_iff {bs : List Int} {v : Int} (hbs : ∀ b ∈ bs, 0 ≤ b)
    (hv : 0 ≤ v) : v.toNat ∈ bs.map Int.toNat ↔ v ∈ bs := by
  constructor
  · intro h
    obtain ⟨b, hb, hbeq⟩ := List.mem_map.mp h
    have := hbs b hb
    have : b = v := by omega
    rwa [this] at hb
  · exact fun h => List.mem_map_of_mem Int.toNat h

theorem exGo_eq_count (grid : Grid) (n : Nat) (hg : grid.length = n)
    (hrows : ∀ row ∈ grid, row.length = n)
    (hids : ∀ row ∈ grid, ∀ v ∈ row, 0 ≤ v ∧ v < 128) :
    ∀ (fuel : Nat) (pre : List Nat), pre.length + fuel = n → (∀ c ∈ pre, c < n) →
      ValidPlacement grid pre →
      exGo grid n fuel pre.length (ucOf pre) (lcOf pre) (ubOf grid pre) =
        ((listsOfLength fuel n).filter
          (fun xs => decide (ValidPlacement grid (pre ++ xs)))).length := by
  intro fuel
  induction fuel with
  | zero =>
    intro pre hlen hent hvp
    simp [exGo, listsOfLength, hvp]
  | succ fuel ihf =>
    intro pre hlen hent hvp
    have hrow : pre.length < n := by omega
    have hrlt : pre.length < grid.length := by omega
    have hsome : grid[pre.length]? = some grid[pre.length] := List.getElem?_eq_getElem hrlt
    have hlenr : (grid[pre.length]).length = n := hrows _ (grid.getElem_mem hrlt)
    have hvrow : ∀ v ∈ grid[pre.length], 0 ≤ v ∧ v < 128 :=
      hids _ (grid.getElem_mem hrlt)
    have hpreb : ∀ b ∈ blocksFrom grid 0 pre, 0 ≤ b ∧ b < 128 :=
      blocksFrom_bounds grid n hg hrows hids pre 0 (by omega) hent
    have inner : ∀ cols : List Nat, (∀ c ∈ cols, c < n) →
        exLoop (ucOf pre) pre.length (lcOf pre) grid[pre.length]
            (fun uc lc ub => exGo grid n fuel (pre.length + 1) uc lc ub) cols
            (ubOf grid pre) =
          ((cols.flatMap (fun c => (listsOfLength fuel n).map (fun xs => c :: xs))).filter
            (fun xs => decide (ValidPlacement grid (pre ++ xs)))).length := by
      intro cols
      induction cols with
      | nil => simp [exLoop]
      | cons c rest ihc =>
        intro hcols
        have hc : c < n := hcols c (List.mem_cons_self c rest)
        have hrest : ∀ d ∈ rest, d < n := fun d hd => hcols d (List.mem_cons_of_mem c hd)
        have hclt : c < (grid[pre.length]).length := by rw [hlenr]; exact hc
        have hcsome : (grid[pre.length])[c]? = some (grid[pre.length])[c] :=
          List.getElem?_eq_getElem hclt
        have hcell : cellAt grid (pre.length, c) = (grid[pre.length])[c] :=
          cellAt_eq_getElem hrlt hclt
        obtain ⟨hv0, hv128⟩ := hvrow _ ((grid[pre.length]).getElem_mem hclt)
        have hble : ¬ (grid[pre.length])[c] < 0 := by omega
        have hblt : ((grid[pre.length])[c]).toNat < 128 := by omega
        have hlookup := ubOf_getElem? grid pre ((grid[pre.length])[c]).toNat hblt
        have hmemiff : ((grid[pre.length])[c]).toNat ∈ (blocksFrom grid 0 pre).map Int.toNat ↔
            (grid[pre.length])[c] ∈ blocksFrom grid 0 pre :=
          mem_map_toNat_iff (fun b hb => (hpreb b hb).1) hv0
        -- split the right-hand side at the head column
        have hsplit :
            (((c :: rest).flatMap (fun d => (listsOfLength fuel n).map (fun xs => d :: xs))).filter
              (fun xs => decide (ValidPlacement grid (pre ++ xs)))).length =
            ((listsOfLength fuel n).filter
              (fun xs => decide (ValidPlacement grid ((pre ++ [c]) ++ xs)))).length +
            ((rest.flatMap (fun d => (listsOfLength fuel n).map (fun xs => d :: xs))).filter
              (fun xs => decide (ValidPlacement grid (pre ++ xs)))).length := by
          rw [List.flatMap_cons, List.filter_append, List.length_append, List.filter_map]
          simp only [List.length_map]
          congr 2
          apply List.filter_congr
          intro xs _
          simp only [Function.comp_apply]
          rw [List.append_cons]
        by_cases h1 : ucOf pre &&& (1 <<< c) ≠ 0
        · -- column already used: the head contributes nothing
          have hcpre : c ∈ pre := (ucOf_and_ne pre c).mp h1
          have hnv : ¬ ValidPlacement grid (pre ++ [c]) := by
            rw [validPlacement_append_singleton]
            tauto
          have hzero : ((listsOfLength fuel n).filter
              (fun xs => decide (ValidPlacement grid ((pre ++ [c]) ++ xs)))).length = 0 := by
            rw [List.length_eq_zero, List.filter_eq_nil_iff]
            intro xs _
            simp only [decide_eq_true_eq]
            intro hvv
            exact hnv (validPlacement_of_append grid (pre ++ [c]) xs hvv)
          rw [hsplit, hzero]
          simp only [exLoop, if_pos h1]
          exact (ihc hrest).trans (by omega)
        · by_cases h2 : 0 < pre.length ∧ (lcOf pre - (c : Int)).natAbs ≤ 1
          · -- adjacent to the previous queen: head contributes nothing
            have hpne : pre ≠ [] := by
              intro hnil
              rw [hnil] at h2
              simp at h2
            obtain ⟨l, hl⟩ : ∃ l, pre.getLast? = some l := by
              rcases hlast : pre.getLast? with _ | l
              · exact absurd (List.getLast?_eq_none_iff.mp hlast) hpne
              · exact ⟨l, rfl⟩
            have hlc : lcOf pre = (l : Int) := by rw [lcOf, hl]
            have hnv : ¬ ValidPlacement grid (pre ++ [c]) := by
              rw [validPlacement_append_singleton]
              rintro ⟨-, -, hadj, -⟩
              have := hadj l hl
              unfold adjFar at this
              rw [hlc] at h2
              omega
            have hzero : ((listsOfLength fuel n).filter
                (fun xs => decide (ValidPlacement grid ((pre ++ [c]) ++ xs)))).length = 0 := by
              rw [List.length_eq_zero, List.filter_eq_nil_iff]
              intro xs _
              simp only [decide_eq_true_eq]
              intro hvv
              exact hnv (validPlacement_of_append grid (pre ++ [c]) xs hvv)
            rw [hsplit, hzero]
            simp only [exLoop, if_neg h1, if_pos h2]
            exact (ihc hrest).trans (by omega)
          · by_cases h4 : (grid[pre.length])[c] ∈ blocksFrom grid 0 pre
            · -- region already used: head contributes nothing
              have hnv : ¬ ValidPlacement grid (pre ++ [c]) := by
                rw [validPlacement_append_singleton]
                rw [hcell]
                tauto
              have hzero : ((listsOfLength fuel n).filter
                  (fun xs => decide (ValidPlacement grid ((pre ++ [c]) ++ xs)))).length = 0 := by
                rw [List.length_eq_zero, List.filter_eq_nil_iff]
                intro xs _
                simp only [decide_eq_true_eq]
                intro hvv
                exact hnv (validPlacement_of_append grid (pre ++ [c]) xs hvv)
              have hused : (ubOf grid pre)[((grid[pre.length])[c]).toNat]? = some true := by
                rw [hlookup, if_pos (hmemiff.mpr h4)]
              rw [hsplit, hzero]
              simp only [exLoop, if_neg h1, if_neg h2, hcsome, if_neg hble, hused,
                eq_self_iff_true, if_true]
              exact (ihc hrest).trans (by omega)
            · -- the column is accepted: recurse
              have hvnext : ValidPlacement grid (pre ++ [c]) := by
                rw [validPlacement_append_singleton]
                refine ⟨hvp, ?_, ?_, ?_⟩
                · intro hmem
                  exact h1 ((ucOf_and_ne pre c).mpr hmem)
                · intro lc hlc
                  unfold adjFar
                  rcases Nat.eq_zero_or_pos pre.length with hz | hpos
                  · rw [List.length_eq_zero.mp hz] at hlc
                    simp at hlc
                  · have : lcOf pre = (lc : Int) := by rw [lcOf, hlc]
                    rw [not_and_or] at h2
                    rcases h2 with h2 | h2
                    · omega
                    · rw [this] at h2
                      omega
                · rw [hcell]
                  exact h4
              have hused : (ubOf grid pre)[((grid[pre.length])[c]).toNat]? = some false := by
                rw [hlookup, if_neg]
                rw [hmemiff]
                exact h4
              have hihnext := ihf (pre ++ [c]) (by simp; omega)
                (by
                  intro d hd
                  rcases List.mem_append.mp hd with hd | hd
                  · exact hent d hd
                  · simp only [List.mem_singleton] at hd
                    subst hd
                    exact hc)
                hvnext
              rw [ucOf_append, lcOf_append, ubOf_append, hcell] at hihnext
              have hlen1 : (pre ++ [c]).length = pre.length + 1 := by simp
              rw [hlen1] at hihnext
              rw [hsplit]
              simp only [exLoop, if_neg h1, if_neg h2, hcsome, if_neg hble, hused,
                Bool.false_eq_true, if_false]
              rw [hihnext, ihc hrest]
    have hex : exGo grid n (fuel + 1) pre.length (ucOf pre) (lcOf pre) (ubOf grid pre) =
        exLoop (ucOf pre) pre.length (lcOf pre) grid[pre.length]
          (fun uc lc ub => exGo grid n fuel (pre.length + 1) uc lc ub) (List.range n)
          (ubOf grid pre) := by
      simp only [exGo, hsome]
    rw [hex, inner (List.range n) (fun c hc => List.mem_range.mp hc)]
    rfl

/-!
## Restoration of the block table
-/

theorem btkLoop_restore
    (usedCols row : Nat) (lastCol : Int) (gridRow : List Int)
    (recurse : Nat → Int → Int → List Bool → Option (Int × List Bool))
    (hrec : ∀ (uc : Nat) (lc t : Int) (u : List Bool) (r : Int) (u2 : List Bool),
      recurse uc lc t u = some (r, u2) → u2 = u) :
    ∀ (cols : List Nat) (threshold count : Int) (ub : List Bool) (r : Int) (ub2 : List Bool),
      btkLoop usedCols row lastCol gridRow threshold recurse cols count ub = some (r, ub2) →
      ub2 = ub := by
  intro cols
  induction cols with
  | nil =>
    intro threshold count ub r ub2 h
    simp only [btkLoop, Option.some_inj, Prod.mk.injEq] at h
    exact h.2.symm
  | cons col rest ih =>
    intro threshold count ub r ub2 h
    simp only [btkLoop] at h
    split at h
    · exact ih threshold count ub r ub2 h
    · split at h
      · exact ih threshold count ub r ub2 h
      · split at h
        · cases h
        · rename_i blockId hblock
          split at h
          · cases h
          · split at h
            · cases h
            · rename_i used hused
              split at h
              · exact ih threshold count ub r ub2 h
              · rename_i husedF
                split at h
                · cases h
                · rename_i cnt u2 hreceq
                  have hu2 : u2 = ub.set blockId.toNat true := hrec _ _ _ _ _ _ hreceq
                  have hfalse : used = false := by
                    rcases used with _ | _
                    · rfl
                    · exact absurd rfl husedF
                  have hrestore : u2.set blockId.toNat false = ub := by
                    rw [hu2, List.set_set]
                    refine set_eq_self_of_getElem? ub _ false ?_
                    rw [hused, hfalse]
                  split at h
                  · simp only [Option.some_inj, Prod.mk.injEq] at h
                    rw [← h.2, hrestore]
                  · rw [← hrestore]
                    exact ih _ _ _ r ub2 h

theorem btk_restore (grid : Grid) (n : Nat) :
    ∀ (fuel row usedCols : Nat) (lastCol threshold : Int) (ub : List Bool)
      (r : Int) (ub2 : List Bool),
      btk grid n fuel row usedCols lastCol threshold ub = some (r, ub2) → ub2 = ub := by
  intro fuel
  induction fuel with
  | zero =>
    intro row usedCols lastCol threshold ub r ub2 h
    simp only [btk, Option.some_inj, Prod.mk.injEq] at h
    exact h.2.symm
  | succ fuel ih =>
    intro row usedCols lastCol threshold ub r ub2 h
    simp only [btk] at h
    split at h
    · cases h
    · exact btkLoop_restore usedCols row lastCol _ _
        (fun uc lc t u r2 u2 heq => ih (row + 1) uc lc t u r2 u2 heq)
        (List.range n) threshold 0 ub r ub2 h

/-!
## Claims about the solution counter
-/

theorem ucOf_nil : ucOf [] = 0 := rfl

theorem lcOf_nil : lcOf [] = -100 := rfl

theorem ubOf_nil (grid : Grid) : ubOf grid [] = List.replicate 128 false := rfl

/-- Helper putting `btk_spec` and `exGo_eq_count` together at the initial
search state of `count_valid_solutions`. -/
theorem count_valid_solutions_run (grid : Grid) (t : Int)
    (hrows : ∀ row ∈ grid, row.length = grid.length)
    (hids : ∀ row ∈ grid, ∀ v ∈ row, 0 ≤ v ∧ v < 128) :
    ∃ r : Int, count_valid_solutions grid t = some r ∧
      0 ≤ r ∧ r ≤ (Nvalid grid : Int) ∧ ((Nvalid grid : Int) = r ∨ t < r) := by
  obtain ⟨r, heq, h0, hle, hor⟩ :=
    btk_spec grid grid.length rfl hrows hids grid.length 0 0 (-100) t
      (List.replicate 128 false) (by omega) (by simp)
  have hstate : exGo grid grid.length grid.length 0 0 (-100) (List.replicate 128 false) =
      Nvalid grid := by
    have h := exGo_eq_count grid grid.length rfl hrows hids grid.length []
      (by simp) (by simp) (validPlacement_nil grid)
    rw [ucOf_nil, lcOf_nil, ubOf_nil] at h
    simp only [List.length_nil, List.nil_append] at h
    rw [h, Nvalid]
  rw [hstate] at hle hor
  refine ⟨r, ?_, h0, hle, by tauto⟩
  unfold count_valid_solutions
  simp only [heq]

/-- C1: on a well-formed `n × n` grid (`n ≥ 1`, region ids in `[0, 128)`;
`n ≤ 32` keeps the `uint32_t` column mask faithful) with a positive
threshold `t`, `count_valid_solutions` returns exactly the number
`Nvalid` of placements satisfying the extended ruleset whenever that
number is at most `t`, and otherwise returns a value strictly greater
than `t`. -/
theorem c1_count_placements_exact_or_exceeds (grid : Grid) (t : Int)
    (hn1 : 1 ≤ grid.length) (hn32 : grid.length ≤ 32)
    (hrows : ∀ row ∈ grid, row.length = grid.length)
    (hids : ∀ row ∈ grid, ∀ v ∈ row, 0 ≤ v ∧ v < 128)
    (ht : 0 < t) :
    ((Nvalid grid : Int) ≤ t →
      count_valid_solutions grid t = some ((Nvalid grid : Nat) : Int)) ∧
    (t < (Nvalid grid : Int) →
      ∃ r : Int, count_valid_solutions grid t = some r ∧ t < r) := by
  obtain ⟨r, heq, h0, hle, hor⟩ := count_valid_solutions_run grid t hrows hids
  constructor
  · intro hN
    rcases hor with hor | hor
    · rw [heq, ← hor]
    · omega
  · intro hN
    refine ⟨r, heq, ?_⟩
    rcases hor with hor | hor
    · omega
    · exact hor

/-- C1 witness: the all-one-region 4×4 grid of scenario A has no valid
placement, and `count_valid_solutions` reports exactly that at
threshold 10. -/
theorem c1_count_placements_exact_or_exceeds_witness :
    count_valid_solutions [[0, 0, 0, 0], [0, 0, 0, 0], [0, 0, 0, 0], [0, 0, 0, 0]] 10 =
      some ((Nvalid [[0, 0, 0, 0], [0, 0, 0, 0], [0, 0, 0, 0], [0, 0, 0, 0]] : Nat) : Int) ∧
    Nvalid [[0, 0, 0, 0], [0, 0, 0, 0], [0, 0, 0, 0], [0, 0, 0, 0]] = 0 := by
  constructor
  · exact (c1_count_placements_exact_or_exceeds
      [[0, 0, 0, 0], [0, 0, 0, 0], [0, 0, 0, 0], [0, 0, 0, 0]] 10
      (by decide) (by decide) (by decide) (by decide) (by decide)).1 (by decide)
  · decide

/-- C2: the code has no capacity check.  A region id of 128 on a 1×1
board drives `_backtrack` straight into `used_blocks[128]`, one entry
past the 128-slot table — an unchecked out-of-bounds read (`none` in the
embedding), not an explicit capacity-exceeded error.  Worse, a grid can
hold an id `≥ 128` in a cell the pruned search never examines, in which
case the call silently returns an ordinary count. -/
theorem c2_capacity_exceeded_is_oob_not_error :
    count_valid_solutions [[128]] 1 = none ∧
    count_valid_solutions [[0, 0], [0, 999]] 1 = some 0 := by
  constructor
  · decide
  · decide

/-- C3 counterexample: with threshold 0 (which is `≤ 0`) the solver does
not fail with a validation error; it runs the pruned search and returns
an ordinary result. -/
theorem c3_threshold_not_validated_counterexample :
    count_valid_solutions [[0]] 0 = some 1 := by decide

/-- C3 amended: `count_valid_solutions` performs no threshold
validation.  For any threshold `t ≤ 0` on a well-formed grid it still
runs the pruned search and returns some nonnegative count bounded by the
true count (the pruning merely fires earlier, so the result may
undercount). -/
theorem c3_amended_threshold_not_validated (grid : Grid) (t : Int)
    (hrows : ∀ row ∈ grid, row.length = grid.length)
    (hids : ∀ row ∈ grid, ∀ v ∈ row, 0 ≤ v ∧ v < 128)
    (ht : t ≤ 0) :
    ∃ r : Int, count_valid_solutions grid t = some r ∧ 0 ≤ r ∧
      r ≤ (Nvalid grid : Int) := by
  obtain ⟨r, heq, h0, hle, -⟩ := count_valid_solutions_run grid t hrows hids
  exact ⟨r, heq, h0, hle⟩

/-- C3 amended witness at the 1×1 grid with threshold 0. -/
theorem c3_amended_threshold_not_validated_witness :
    (0 : Int) ≤ 0 ∧
    ∃ r : Int, count_valid_solutions [[0]] 0 = some r ∧ 0 ≤ r ∧
      r ≤ (Nvalid [[0]] : Int) :=
  ⟨le_refl 0,
    c3_amended_threshold_not_validated [[0]] 0 (by decide) (by decide) (by decide)⟩

/-- C9: the counter is pure.  The `used_blocks` scratch table is restored
to its entry state by every `_backtrack` call (the only mutation the
function performs — the grid itself is copied by `np.array` and only
read), and the result is a function of the grid and threshold values
alone, so equal inputs give equal outputs. -/
theorem c9_count_valid_solutions_pure :
    (∀ (grid : Grid) (n fuel row usedCols : Nat) (lastCol threshold : Int)
        (ub ub2 : List Bool) (r : Int),
        btk grid n fuel row usedCols lastCol threshold ub = some (r, ub2) → ub2 = ub) ∧
    (∀ (g1 g2 : Grid) (t1 t2 : Int), g1 = g2 → t1 = t2 →
        count_valid_solutions g1 t1 = count_valid_solutions g2 t2) := by
  constructor
  · intro grid n fuel row usedCols lastCol threshold ub ub2 r h
    exact btk_restore grid n fuel row usedCols lastCol threshold ub r ub2 h
  · rintro g1 g2 t1 t2 rfl rfl
    rfl

/-- C9 witness: a concrete run restores the all-false table and equal
inputs give equal results. -/
theorem c9_count_valid_solutions_pure_witness :
    List.replicate 128 false = List.replicate 128 false ∧
    count_valid_solutions [[3]] 2 = count_valid_solutions [[3]] 2 := by
  constructor
  · exact c9_count_valid_solutions_pure.1 [[3]] 1 1 0 0 (-100) 2
      (List.replicate 128 false) (List.replicate 128 false) 1 (by decide)
  · exact c9_count_valid_solutions_pure.2 [[3]] [[3]] 2 2 rfl rfl

/-!
## Grid comparison: `are_grids_same` from `generator_cy.pyx`

The source builds dictionaries `d1`, `d2` mapping each region id to the
list of its cell coordinates, appended in row-major order over
`range(n) × range(n)` and then sorted (a no-op, since row-major order is
already lexicographic), and returns `d1 == d2`.  Python dictionary
equality (same key sets, equal values) is equivalent to: for every id
`k`, the two coordinate lists agree — an id that is a key of neither
dictionary has the empty list on both sides, and a nonempty list makes
`k` a key.  The executable embedding checks this for every id occurring
in either grid, which covers all keys of either dictionary.
-/

/-- Row-major list of coordinates of the cells holding id `k`: the entry
`d[k]` of the dictionaries built by `are_grids_same`. -/
def cellsOfId (g : Grid) (n : Nat) (k : Int) : List (Nat × Nat) :=
  (coords n).filter (fun p => cellAt g p == k)

/-- All cell values of the first `n` rows in row-major order. -/
def gridIdList (g : Grid) (n : Nat) : List Int :=
  (coords n).map (cellAt g)

/-- Embedding of `are_grids_same(g1, g2)`: size guard, then the dictionary
comparison described above. -/
def are_grids_same (g1 g2 : Grid) : Bool :=
  let n := g1.length
  if n ≠ g2.length then false
  else
    ((gridIdList g1 n ++ gridIdList g2 n).dedup).all
      (fun k => decide (cellsOfId g1 n k = cellsOfId g2 n k))

theorem mem_coords {n : Nat} {p : Nat × Nat} : p ∈ coords n ↔ p.1 < n ∧ p.2 < n := by
  rcases p with ⟨i, j⟩
  simp only [coords, List.mem_flatMap, List.mem_map, List.mem_range]
  constructor
  · rintro ⟨a, ha, b, hb, h⟩
    cases h
    exact ⟨ha, hb⟩
  · rintro ⟨hi, hj⟩
    exact ⟨i, hi, j, hj, rfl⟩

theorem cellAt_map_map {g : Grid} {f : Int → Int} {i j : Nat}
    (hi : i < g.length) (hj : j < (g.getD i []).length) :
    cellAt (g.map (fun row => row.map f)) (i, j) = f (cellAt g (i, j)) := by
  have hg : g[i]? = some g[i] := List.getElem?_eq_getElem hi
  have hj' : j < (g[i]).length := by
    rw [List.getD_eq_getElem?_getD, hg] at hj
    simpa using hj
  unfold cellAt
  simp only [List.getD_eq_getElem?_getD, List.getElem?_map, hg]
  simp [List.getElem?_eq_getElem hj']

/-- C7: `same_partition` is reflexive, and any relabeling of region ids
that changes at least one cell of a well-formed grid makes it return
`false`, even though the region shapes are unchanged. -/
theorem c7_are_grids_same_refl_label_sensitive :
    (∀ g : Grid, are_grids_same g g = true) ∧
    (∀ (g : Grid) (f : Int → Int) (i j : Nat),
      (∀ row ∈ g, row.length = g.length) →
      i < g.length → j < g.length →
      f (cellAt g (i, j)) ≠ cellAt g (i, j) →
      are_grids_same g (g.map (fun row => row.map f)) = false) := by
  constructor
  · intro g
    unfold are_grids_same
    simp
  · intro g f i j hsq hi hj hchanged
    by_contra hne
    rw [Bool.not_eq_false] at hne
    unfold are_grids_same at hne
    rw [if_neg (by simp)] at hne
    rw [List.all_eq_true] at hne
    have hjlen : j < (g.getD i []).length := by
      rw [List.getD_eq_getElem?_getD, List.getElem?_eq_getElem hi]
      simpa using (hsq (g[i]) (g.getElem_mem hi)) ▸ hj
    set k0 : Int := cellAt g (i, j) with hk0
    have hk0mem : k0 ∈ (gridIdList g g.length ++ gridIdList (g.map (fun row => row.map f)) g.length).dedup := by
      rw [List.mem_dedup, List.mem_append]
      left
      exact List.mem_map.mpr ⟨(i, j), mem_coords.mpr ⟨hi, hj⟩, rfl⟩
    have hcells := of_decide_eq_true (hne k0 hk0mem)
    have hmem1 : (i, j) ∈ cellsOfId g g.length k0 := by
      rw [cellsOfId, List.mem_filter]
      exact ⟨mem_coords.mpr ⟨hi, hj⟩, by simp⟩
    rw [hcells] at hmem1
    rw [cellsOfId, List.mem_filter] at hmem1
    have : cellAt (g.map (fun row => row.map f)) (i, j) = k0 := by
      simpa using hmem1.2
    rw [cellAt_map_map hi hjlen] at this
    exact hchanged this

/-- C7 witness: reflexivity and label sensitivity at a concrete grid. -/
theorem c7_are_grids_same_refl_label_sensitive_witness :
    are_grids_same [[0, 1], [1, 1]] [[0, 1], [1, 1]] = true ∧
    are_grids_same [[0, 1], [1, 1]] [[2, 3], [3, 3]] = false := by
  constructor
  · exact c7_are_grids_same_refl_label_sensitive.1 [[0, 1], [1, 1]]
  · have h := c7_are_grids_same_refl_label_sensitive.2 [[0, 1], [1, 1]]
      (fun x => x + 2) 0 0 (by decide) (by decide) (by decide) (by decide)
    simpa using h

/-- C10: grids with different numbers of rows always compare unequal; the
size mismatch is reported as `false`, not an error. -/
theorem c10_are_grids_same_length_mismatch (g1 g2 : Grid)
    (h : g1.length ≠ g2.length) : are_grids_same g1 g2 = false := by
  unfold are_grids_same
  rw [if_pos h]

/-- C10 witness at concrete grids of different sizes. -/
theorem c10_are_grids_same_length_mismatch_witness :
    are_grids_same [[0]] [] = false :=
  c10_are_grids_same_length_mismatch [[0]] [] (by decide)

/-!
## Randomized n-queens solver: `random_n_queens` from `generator_cy.pyx`

The Python `_backtrack(row, n, solution, cols, diag1, diag2, sol)`
mutates the pre-allocated `solution` list in row order and copies it into
`sol[0]` only at `row == n`, so the live state is the prefix of placed
columns; the embedding carries that prefix and returns the copied
solution through an `Option` — `random_n_queens` returns `sol[0]`, which
is Python `None` (here `none`) when the search fails.  The shuffled
candidate list `random.shuffle(list(range(n)))` is modelled by an oracle
`σ` applied to the current prefix: within one run, each recursive call is
reached with a distinct prefix, so quantifying over all `σ` covers every
outcome of the shuffles.  The Python sets `cols`, `diag1`, `diag2` become
finsets, inserted into on descent; the mutate-then-restore discipline
means each sibling iteration sees the original sets, which the pure
embedding gives directly. -/

/-- The `for col in cols_list` loop of the generator `_backtrack`:
skip a column on any conflict, otherwise place it and recurse; the first
success is returned, exhaustion returns `none` (Python `False`). -/
def gloop (n row : Nat)
    (recurse : List Nat → Finset Nat → Finset Int → Finset Int → Option (List Nat))
    (pre : List Nat) (cols : Finset Nat) (d1 d2 : Finset Int) :
    List Nat → Option (List Nat)
  | [] => none
  | c :: rest =>
    if c ∈ cols ∨ ((row : Int) - (c : Int)) ∈ d1 ∨ ((row : Int) + (c : Int)) ∈ d2 then
      gloop n row recurse pre cols d1 d2 rest
    else
      match recurse (pre ++ [c]) (insert c cols) (insert ((row : Int) - (c : Int)) d1)
          (insert ((row : Int) + (c : Int)) d2) with
      | some s => some s
      | none => gloop n row recurse pre cols d1 d2 rest

/-- Embedding of the generator `_backtrack`; `fuel = n - row` and the
current row is the length of the placed prefix. -/
def gbk (n : Nat) (σ : List Nat → List Nat) :
    Nat → List Nat → Finset Nat → Finset Int → Finset Int → Option (List Nat)
  | 0, pre, _, _, _ => some pre
  | fuel + 1, pre, cols, d1, d2 =>
    gloop n pre.length (fun p cs a b => gbk n σ fuel p cs a b) pre cols d1 d2 (σ pre)

/-- Embedding of `random_n_queens(n)`. -/
def random_n_queens (n : Nat) (σ : List Nat → List Nat) : Option (List Nat) :=
  gbk n σ n [] ∅ ∅ ∅

/-- Used columns of a placed prefix (the Python set `cols`). -/
def colsOfQ (pre : List Nat) : Finset Nat := pre.toFinset

/-- Used difference diagonals of a placed prefix (the set `diag1`). -/
def d1OfQ (pre : List Nat) : Finset Int :=
  ((List.range pre.length).map (fun (i : Nat) => (i : Int) - (pre.getD i 0 : Int))).toFinset

/-- Used sum diagonals of a placed prefix (the set `diag2`). -/
def d2OfQ (pre : List Nat) : Finset Int :=
  ((List.range pre.length).map (fun (i : Nat) => (i : Int) + (pre.getD i 0 : Int))).toFinset

/-- Full pairwise classic-queens constraints, exactly as the claim states
them: over every pair of distinct rows, the columns differ, the
row-minus-column values differ, and the row-plus-column values differ. -/
def QueensPairwise (xs : List Nat) : Prop :=
  ∀ i j, i < j → j < xs.length →
    xs.getD i 0 ≠ xs.getD j 0 ∧
    (i : Int) - (xs.getD i 0 : Int) ≠ (j : Int) - (xs.getD j 0 : Int) ∧
    (i : Int) + (xs.getD i 0 : Int) ≠ (j : Int) + (xs.getD j 0 : Int)

instance (xs : List Nat) : Decidable (QueensPairwise xs) :=
  decidable_of_iff
    (∀ j, j < xs.length → ∀ i, i < j →
      xs.getD i 0 ≠ xs.getD j 0 ∧
      (i : Int) - (xs.getD i 0 : Int) ≠ (j : Int) - (xs.getD j 0 : Int) ∧
      (i : Int) + (xs.getD i 0 : Int) ≠ (j : Int) + (xs.getD j 0 : Int))
    ⟨fun h i j hij hj => h j hj i hij, fun h j hj i hij => h i j hij hj⟩

theorem getD_eq_getElem2 (l : List Nat) (i : Nat) (h : i < l.length) :
    l.getD i 0 = l[i] := by
  rw [List.getD_eq_getElem?_getD, List.getElem?_eq_getElem h]
  rfl

theorem mem_iff_getD {l : List Nat} {c : Nat} :
    c ∈ l ↔ ∃ i, i < l.length ∧ l.getD i 0 = c := by
  rw [List.mem_iff_getElem]
  constructor
  · rintro ⟨i, h, rfl⟩
    exact ⟨i, h, getD_eq_getElem2 l i h⟩
  · rintro ⟨i, h, hc⟩
    exact ⟨i, h, by rw [← getD_eq_getElem2 l i h, hc]⟩

theorem getD_append_lt (pre suf : List Nat) (i : Nat) (h : i < pre.length) :
    (pre ++ suf).getD i 0 = pre.getD i 0 := by
  rw [getD_eq_getElem2 _ i (by simp; omega), getD_eq_getElem2 _ i h,
    List.getElem_append_left h]

theorem getD_append_self (pre : List Nat) (c : Nat) :
    (pre ++ [c]).getD pre.length 0 = c := by
  rw [getD_eq_getElem2 _ pre.length (by simp)]
  simp

theorem mem_colsOfQ {pre : List Nat} {c : Nat} :
    c ∈ colsOfQ pre ↔ ∃ i, i < pre.length ∧ pre.getD i 0 = c := by
  rw [colsOfQ, List.mem_toFinset, mem_iff_getD]

theorem mem_d1OfQ {pre : List Nat} {x : Int} :
    x ∈ d1OfQ pre ↔ ∃ i, i < pre.length ∧ (i : Int) - (pre.getD i 0 : Int) = x := by
  rw [d1OfQ, List.mem_toFinset, List.mem_map]
  constructor
  · rintro ⟨i, hi, rfl⟩
    exact ⟨i, List.mem_range.mp hi, rfl⟩
  · rintro ⟨i, hi, hx⟩
    exact ⟨i, List.mem_range.mpr hi, hx⟩

theorem mem_d2OfQ {pre : List Nat} {x : Int} :
    x ∈ d2OfQ pre ↔ ∃ i, i < pre.length ∧ (i : Int) + (pre.getD i 0 : Int) = x := by
  rw [d2OfQ, List.mem_toFinset, List.mem_map]
  constructor
  · rintro ⟨i, hi, rfl⟩
    exact ⟨i, List.mem_range.mp hi, rfl⟩
  · rintro ⟨i, hi, hx⟩
    exact ⟨i, List.mem_range.mpr hi, hx⟩

theorem colsOfQ_append (pre : List Nat) (c : Nat) :
    colsOfQ (pre ++ [c]) = insert c (colsOfQ pre) := by
  unfold colsOfQ
  rw [List.toFinset_append]
  simp [Finset.union_comm, Finset.insert_eq]

theorem d1OfQ_append (pre : List Nat) (c : Nat) :
    d1OfQ (pre ++ [c]) = insert ((pre.length : Int) - (c : Int)) (d1OfQ pre) := by
  apply Finset.ext
  intro x
  rw [mem_d1OfQ, Finset.mem_insert, mem_d1OfQ]
  simp only [List.length_append, List.length_singleton]
  constructor
  · rintro ⟨i, hi, hx⟩
    by_cases h : i < pre.length
    · rw [getD_append_lt pre [c] i h] at hx
      exact Or.inr ⟨i, h, hx⟩
    · have : i = pre.length := by omega
      subst this
      rw [getD_append_self] at hx
      exact Or.inl hx.symm
  · rintro (hx | ⟨i, hi, hx⟩)
    · exact ⟨pre.length, by omega, by rw [getD_append_self, hx]⟩
    · exact ⟨i, by omega, by rw [getD_append_lt pre [c] i hi, hx]⟩

theorem d2OfQ_append (pre : List Nat) (c : Nat) :
    d2OfQ (pre ++ [c]) = insert ((pre.length : Int) + (c : Int)) (d2OfQ pre) := by
  apply Finset.ext
  intro x
  rw [mem_d2OfQ, Finset.mem_insert, mem_d2OfQ]
  simp only [List.length_append, List.length_singleton]
  constructor
  · rintro ⟨i, hi, hx⟩
    by_cases h : i < pre.length
    · rw [getD_append_lt pre [c] i h] at hx
      exact Or.inr ⟨i, h, hx⟩
    · have : i = pre.length := by omega
      subst this
      rw [getD_append_self] at hx
      exact Or.inl hx.symm
  · rintro (hx | ⟨i, hi, hx⟩)
    · exact ⟨pre.length, by omega, by rw [getD_append_self, hx]⟩
    · exact ⟨i, by omega, by rw [getD_append_lt pre [c] i hi, hx]⟩

theorem queensPairwise_append_singleton (pre : List Nat) (c : Nat) :
    QueensPairwise (pre ++ [c]) ↔
      QueensPairwise pre ∧ ∀ i, i < pre.length →
        pre.getD i 0 ≠ c ∧
        (i : Int) - (pre.getD i 0 : Int) ≠ (pre.length : Int) - (c : Int) ∧
        (i : Int) + (pre.getD i 0 : Int) ≠ (pre.length : Int) + (c : Int) := by
  constructor
  · intro h
    constructor
    · intro i j hij hj
      have := h i j hij (by simp; omega)
      rwa [getD_append_lt pre [c] i (by omega), getD_append_lt pre [c] j hj] at this
    · intro i hi
      have := h i pre.length hi (by simp)
      rwa [getD_append_lt pre [c] i hi, getD_append_self] at this
  · rintro ⟨hqp, hnew⟩ i j hij hj
    simp only [List.length_append, List.length_singleton] at hj
    by_cases h : j < pre.length
    · rw [getD_append_lt pre [c] i (by omega), getD_append_lt pre [c] j h]
      exact hqp i j hij h
    · have : j = pre.length := by omega
      subst this
      rw [getD_append_lt pre [c] i hij, getD_append_self]
      exact hnew i hij

theorem queensPairwise_of_append (a b : List Nat) :
    QueensPairwise (a ++ b) → QueensPairwise a := by
  intro h i j hij hj
  have := h i j hij (by simp; omega)
  rwa [getD_append_lt a b i (by omega), getD_append_lt a b j hj] at this

theorem gbk_sound (n : Nat) (σ : List Nat → List Nat)
    (hσ : ∀ pre, ∀ c ∈ σ pre, c < n) :
    ∀ (fuel : Nat) (pre : List Nat), pre.length + fuel = n → (∀ c ∈ pre, c < n) →
      QueensPairwise pre →
      ∀ sol, gbk n σ fuel pre (colsOfQ pre) (d1OfQ pre) (d2OfQ pre) = some sol →
        sol.length = n ∧ (∀ c ∈ sol, c < n) ∧ QueensPairwise sol := by
  intro fuel
  induction fuel with
  | zero =>
    intro pre hlen hent hqp sol h
    simp only [gbk, Option.some_inj] at h
    subst h
    exact ⟨by omega, hent, hqp⟩
  | succ fuel ihf =>
    intro pre hlen hent hqp sol h
    simp only [gbk] at h
    have inner : ∀ l : List Nat, (∀ c ∈ l, c < n) →
        ∀ sol, gloop n pre.length (fun p cs a b => gbk n σ fuel p cs a b) pre
            (colsOfQ pre) (d1OfQ pre) (d2OfQ pre) l = some sol →
          sol.length = n ∧ (∀ c ∈ sol, c < n) ∧ QueensPairwise sol := by
      intro l
      induction l with
      | nil =>
        intro _ sol h
        simp [gloop] at h
      | cons c rest ihl =>
        intro hlc sol h
        have hc : c < n := hlc c (List.mem_cons_self c rest)
        have hrest : ∀ d ∈ rest, d < n := fun d hd => hlc d (List.mem_cons_of_mem c hd)
        simp only [gloop] at h
        split at h
        · exact ihl hrest sol h
        · rename_i hreject
          push_neg at hreject
          obtain ⟨h1, h2, h3⟩ := hreject
          have hqpc : QueensPairwise (pre ++ [c]) := by
            rw [queensPairwise_append_singleton]
            refine ⟨hqp, fun i hi => ⟨?_, ?_, ?_⟩⟩
            · intro heq
              exact h1 (mem_colsOfQ.mpr ⟨i, hi, heq⟩)
            · intro heq
              exact h2 (mem_d1OfQ.mpr ⟨i, hi, heq⟩)
            · intro heq
              exact h3 (mem_d2OfQ.mpr ⟨i, hi, heq⟩)
          rw [← colsOfQ_append, ← d1OfQ_append, ← d2OfQ_append] at h
          split at h
          · rename_i s hs
            have hall : ∀ d ∈ pre ++ [c], d < n := by
              intro d hd
              rcases List.mem_append.mp hd with hd | hd
              · exact hent d hd
              · simp only [List.mem_singleton] at hd
                subst hd
                exact hc
            have hres := ihf (pre ++ [c]) (by simp; omega) hall hqpc s hs
            have hss : s = sol := by injection h
            rwa [hss] at hres
          · exact ihl hrest sol h
    exact inner (σ pre) (hσ pre) sol h

theorem gbk_complete (n : Nat) (σ : List Nat → List Nat)
    (hσ : ∀ pre, (σ pre).Perm (List.range n)) :
    ∀ (fuel : Nat) (pre : List Nat), pre.length + fuel = n →
      (∃ xs, xs.length = fuel ∧ (∀ c ∈ xs, c < n) ∧ QueensPairwise (pre ++ xs)) →
      ∃ sol, gbk n σ fuel pre (colsOfQ pre) (d1OfQ pre) (d2OfQ pre) = some sol := by
  intro fuel
  induction fuel with
  | zero =>
    intro pre _ _
    exact ⟨pre, rfl⟩
  | succ fuel ihf =>
    intro pre hlen hex
    obtain ⟨xs, hxlen, hxent, hxqp⟩ := hex
    rcases xs with _ | ⟨c0, xs2⟩
    · simp at hxlen
    have hc0 : c0 < n := hxent c0 (List.mem_cons_self c0 xs2)
    have hc0mem : c0 ∈ σ pre := (hσ pre).mem_iff.mpr (List.mem_range.mpr hc0)
    rw [List.append_cons] at hxqp
    have hqpc0 : QueensPairwise (pre ++ [c0]) :=
      queensPairwise_of_append (pre ++ [c0]) xs2 hxqp
    have hcond := (queensPairwise_append_singleton pre c0).mp hqpc0
    have hacc : ¬(c0 ∈ colsOfQ pre ∨
        ((pre.length : Int) - (c0 : Int)) ∈ d1OfQ pre ∨
        ((pre.length : Int) + (c0 : Int)) ∈ d2OfQ pre) := by
      rintro (h | h | h)
      · obtain ⟨i, hi, heq⟩ := mem_colsOfQ.mp h
        exact (hcond.2 i hi).1 heq
      · obtain ⟨i, hi, heq⟩ := mem_d1OfQ.mp h
        exact (hcond.2 i hi).2.1 heq
      · obtain ⟨i, hi, heq⟩ := mem_d2OfQ.mp h
        exact (hcond.2 i hi).2.2 heq
    have hnext : ∃ sol, gbk n σ fuel (pre ++ [c0]) (colsOfQ (pre ++ [c0]))
        (d1OfQ (pre ++ [c0])) (d2OfQ (pre ++ [c0])) = some sol := by
      refine ihf (pre ++ [c0]) (by simp; omega) ⟨xs2, by simp at hxlen ⊢; omega, ?_, hxqp⟩
      intro d hd
      exact hxent d (List.mem_cons_of_mem c0 hd)
    have inner : ∀ l : List Nat, c0 ∈ l →
        ∃ sol, gloop n pre.length (fun p cs a b => gbk n σ fuel p cs a b) pre
          (colsOfQ pre) (d1OfQ pre) (d2OfQ pre) l = some sol := by
      intro l
      induction l with
      | nil =>
        intro h
        simp at h
      | cons c rest ihl =>
        intro hmem
        simp only [gloop]
        split
        · rename_i hrej
          have hne : c ≠ c0 := by
            rintro rfl
            exact hacc hrej
          rcases List.mem_cons.mp hmem with rfl | hmem2
          · exact absurd rfl hne
          · exact ihl hmem2
        · beta_reduce
          rcases hres : gbk n σ fuel (pre ++ [c]) (insert c (colsOfQ pre))
              (insert ((pre.length : Int) - (c : Int)) (d1OfQ pre))
              (insert ((pre.length : Int) + (c : Int)) (d2OfQ pre)) with _ | s
          · simp only [hres]
            rcases List.mem_cons.mp hmem with rfl | hmem2
            · exfalso
              rw [← colsOfQ_append, ← d1OfQ_append, ← d2OfQ_append] at hres
              obtain ⟨sol, hsol⟩ := hnext
              rw [hres] at hsol
              cases hsol
            · exact ihl hmem2
          · exact ⟨s, by simp only [hres]⟩
    obtain ⟨sol, hsol⟩ := inner (σ pre) hc0mem
    exact ⟨sol, by simp only [gbk]; exact hsol⟩

/-!
## A classic n-queens arrangement exists for every board size at least 4

Explicit construction (Hoffman, Loessi, Moore, 0-indexed).  For even `m`
with `m % 6 ≠ 2` the staircase `qcolA`; for even `m` with `m % 6 = 2`
the shifted staircase `qcolB`; for odd boards, solve the even board
`n - 1` and add a queen in the bottom-right corner.  This feeds the
completeness of the randomized search: for every `n ≥ 4` a completion
exists, so the search cannot fail.
-/

/-- Staircase arrangement for even `m` with `m % 6 ≠ 2`: odd columns
first, then even columns. -/
def qcolA (m i : Nat) : Nat :=
  if i < m / 2 then 2 * i + 1 else 2 * i - m

/-- Shifted staircase for even `m` with `m % 6 = 2`. -/
def qcolB (m i : Nat) : Nat :=
  if i < m / 2 then (2 * i + m / 2 - 1) % m
  else m - 1 - ((2 * (m - 1 - i) + m / 2 - 1) % m)

/-- A valid classic queens column for row `i` of an `n`-board, `n ≥ 4`. -/
def qcol (n i : Nat) : Nat :=
  if n % 2 = 0 then (if n % 6 = 2 then qcolB n i else qcolA n i)
  else if i = n - 1 then n - 1
  else if (n - 1) % 6 = 2 then qcolB (n - 1) i else qcolA (n - 1) i

/-- The constructed arrangement as a placement list. -/
def qsol (n : Nat) : List Nat := (List.range n).map (qcol n)

example : ∀ n, 4 ≤ n → n < 18 → ∀ j < n, ∀ i < j,
    qcol n i ≠ qcol n j ∧
    (i : Int) - (qcol n i : Int) ≠ (j : Int) - (qcol n j : Int) ∧
    (i : Int) + (qcol n i : Int) ≠ (j : Int) + (qcol n j : Int) := by decide

example : ∀ n, 4 ≤ n → n < 18 → ∀ i < n, qcol n i < n := by decide

/-- Unfold `x % m` into a subtraction when `x < 2 * m`. -/
theorem mod_two_cases (x m : Nat) (hm : 0 < m) (hx : x < 2 * m) :
    x % m = if x < m then x else x - m := by
  split
  · exact Nat.mod_eq_of_lt (by assumption)
  · rw [Nat.mod_eq_sub_mod (by omega), Nat.mod_eq_of_lt (by omega)]

theorem qcolA_lt (m i : Nat) (hm2 : m % 2 = 0) (hi : i < m) : qcolA m i < m := by
  unfold qcolA
  split <;> omega

theorem qcolA_pairwise (m : Nat) (hm2 : m % 2 = 0) (hm6 : m % 6 ≠ 2) :
    ∀ i j, i < j → j < m →
      qcolA m i ≠ qcolA m j ∧
      (i : Int) - (qcolA m i : Int) ≠ (j : Int) - (qcolA m j : Int) ∧
      (i : Int) + (qcolA m i : Int) ≠ (j : Int) + (qcolA m j : Int) := by
  intro i j hij hj
  unfold qcolA
  split <;> split <;> refine ⟨by omega, by omega, by omega⟩

theorem qcolA_diag (m i : Nat) (hm2 : m % 2 = 0) (hi : i < m) :
    (i : Int) - (qcolA m i : Int) ≠ 0 := by
  unfold qcolA
  split <;> omega

theorem qcolB_lt (m i : Nat) (hm6 : m % 6 = 2) (hm : 4 ≤ m) (hi : i < m) :
    qcolB m i < m := by
  unfold qcolB
  split
  · rename_i h
    rw [mod_two_cases (2 * i + m / 2 - 1) m (by omega) (by omega)]
    split <;> omega
  · rename_i h
    rw [mod_two_cases (2 * (m - 1 - i) + m / 2 - 1) m (by omega) (by omega)]
    split <;> omega

theorem qcolB_pairwise (m : Nat) (hm6 : m % 6 = 2) (hm : 4 ≤ m) :
    ∀ i j, i < j → j < m →
      qcolB m i ≠ qcolB m j ∧
      (i : Int) - (qcolB m i : Int) ≠ (j : Int) - (qcolB m j : Int) ∧
      (i : Int) + (qcolB m i : Int) ≠ (j : Int) + (qcolB m j : Int) := by
  intro i j hij hj
  unfold qcolB
  rcases Nat.lt_or_ge i (m / 2) with h1 | h1 <;> rcases Nat.lt_or_ge j (m / 2) with h2 | h2
  · have e1 := mod_two_cases (2 * i + m / 2 - 1) m (by omega) (by omega)
    have e2 := mod_two_cases (2 * j + m / 2 - 1) m (by omega) (by omega)
    rw [if_pos h1, if_pos h2, e1, e2]
    split <;> split <;> refine ⟨by omega, by omega, by omega⟩
  · have e1 := mod_two_cases (2 * i + m / 2 - 1) m (by omega) (by omega)
    have e4 := mod_two_cases (2 * (m - 1 - j) + m / 2 - 1) m (by omega) (by omega)
    rw [if_pos h1, if_neg (by omega), e1, e4]
    split <;> split <;> refine ⟨by omega, by omega, by omega⟩
  · omega
  · have e3 := mod_two_cases (2 * (m - 1 - i) + m / 2 - 1) m (by omega) (by omega)
    have e4 := mod_two_cases (2 * (m - 1 - j) + m / 2 - 1) m (by omega) (by omega)
    rw [if_neg (by omega), if_neg (by omega), e3, e4]
    split <;> split <;> refine ⟨by omega, by omega, by omega⟩

theorem qcolB_diag (m i : Nat) (hm6 : m % 6 = 2) (hm : 4 ≤ m) (hi : i < m) :
    (i : Int) - (qcolB m i : Int) ≠ 0 := by
  unfold qcolB
  split
  · rename_i h
    rw [mod_two_cases (2 * i + m / 2 - 1) m (by omega) (by omega)]
    split <;> omega
  · rename_i h
    rw [mod_two_cases (2 * (m - 1 - i) + m / 2 - 1) m (by omega) (by omega)]
    split <;> omega

theorem qcol_lt (n : Nat) (hn : 4 ≤ n) : ∀ i, i < n → qcol n i < n := by
  intro i hi
  unfold qcol
  by_cases h2 : n % 2 = 0
  · rw [if_pos h2]
    by_cases h6 : n % 6 = 2
    · rw [if_pos h6]
      exact qcolB_lt n i h6 hn hi
    · rw [if_neg h6]
      exact qcolA_lt n i h2 hi
  · rw [if_neg h2]
    by_cases hlast : i = n - 1
    · rw [if_pos hlast]
      omega
    · rw [if_neg hlast]
      have him : i < n - 1 := by omega
      by_cases h6 : (n - 1) % 6 = 2
      · rw [if_pos h6]
        have := qcolB_lt (n - 1) i h6 (by omega) him
        omega
      · rw [if_neg h6]
        have := qcolA_lt (n - 1) i (by omega) him
        omega

theorem qcol_pairwise (n : Nat) (hn : 4 ≤ n) :
    ∀ i j, i < j → j < n →
      qcol n i ≠ qcol n j ∧
      (i : Int) - (qcol n i : Int) ≠ (j : Int) - (qcol n j : Int) ∧
      (i : Int) + (qcol n i : Int) ≠ (j : Int) + (qcol n j : Int) := by
  intro i j hij hj
  unfold qcol
  by_cases h2 : n % 2 = 0
  · simp only [if_pos h2]
    by_cases h6 : n % 6 = 2
    · simp only [if_pos h6]
      exact qcolB_pairwise n h6 hn i j hij hj
    · simp only [if_neg h6]
      exact qcolA_pairwise n h2 h6 i j hij hj
  · simp only [if_neg h2]
    have hm4 : 4 ≤ n - 1 := by omega
    have hm2 : (n - 1) % 2 = 0 := by omega
    have hine : i ≠ n - 1 := by omega
    simp only [if_neg hine]
    by_cases hjlast : j = n - 1
    · -- the appended corner queen against a base queen
      simp only [if_pos hjlast]
      have him : i < n - 1 := by omega
      by_cases h6 : (n - 1) % 6 = 2
      · simp only [if_pos h6]
        have hlt := qcolB_lt (n - 1) i h6 hm4 him
        have hdg := qcolB_diag (n - 1) i h6 hm4 him
        refine ⟨by omega, by omega, by omega⟩
      · simp only [if_neg h6]
        have hlt := qcolA_lt (n - 1) i hm2 him
        have hdg := qcolA_diag (n - 1) i hm2 him
        refine ⟨by omega, by omega, by omega⟩
    · -- two base queens
      simp only [if_neg hjlast]
      have hjm : j < n - 1 := by omega
      by_cases h6 : (n - 1) % 6 = 2
      · simp only [if_pos h6]
        exact qcolB_pairwise (n - 1) h6 hm4 i j hij hjm
      · simp only [if_neg h6]
        exact qcolA_pairwise (n - 1) hm2 h6 i j hij hjm

theorem qsol_getD (n i : Nat) (hi : i < n) : (qsol n).getD i 0 = qcol n i := by
  unfold qsol
  rw [List.getD_eq_getElem?_getD, List.getElem?_map, List.getElem?_range hi]
  rfl

theorem qsol_spec (n : Nat) (hn : 4 ≤ n) :
    (qsol n).length = n ∧ (∀ c ∈ qsol n, c < n) ∧ QueensPairwise (qsol n) := by
  have hlen : (qsol n).length = n := by simp [qsol]
  refine ⟨hlen, ?_, ?_⟩
  · intro c hc
    obtain ⟨i, hi, rfl⟩ := List.mem_map.mp hc
    exact qcol_lt n hn i (List.mem_range.mp hi)
  · intro i j hij hj
    rw [hlen] at hj
    rw [qsol_getD n i (by omega), qsol_getD n j hj]
    exact qcol_pairwise n hn i j hij hj

theorem colsOfQ_nil : colsOfQ [] = (∅ : Finset Nat) := by
  simp [colsOfQ]

theorem d1OfQ_nil : d1OfQ [] = (∅ : Finset Int) := by
  simp [d1OfQ]

theorem d2OfQ_nil : d2OfQ [] = (∅ : Finset Int) := by
  simp [d2OfQ]

theorem queensPairwise_nil : QueensPairwise [] := by
  intro i j hij hj
  simp at hj

/-- C4: for every `n ≥ 4` and every outcome of the randomized column
orders (any oracle whose every answer is a permutation of `range n`),
`random_n_queens` succeeds with a placement of length `n` whose entries
lie in `[0, n)`, and over every pair of distinct rows the columns, the
row-minus-column values, and the row-plus-column values all differ —
full diagonal distinctness, not only for adjacent rows. -/
theorem c4_random_n_queens_valid (n : Nat) (σ : List Nat → List Nat)
    (hn : 4 ≤ n) (hσ : ∀ pre, (σ pre).Perm (List.range n)) :
    ∃ sol, random_n_queens n σ = some sol ∧ sol.length = n ∧
      (∀ c ∈ sol, c < n) ∧ QueensPairwise sol := by
  have hent : ∀ pre, ∀ c ∈ σ pre, c < n := fun pre c hc =>
    List.mem_range.mp ((hσ pre).mem_iff.mp hc)
  obtain ⟨hql, hqe, hqp⟩ := qsol_spec n hn
  obtain ⟨sol, hsol⟩ :=
    gbk_complete n σ hσ n [] (by simp) ⟨qsol n, hql, hqe, by simpa using hqp⟩
  have hprops := gbk_sound n σ hent n [] (by simp) (by simp) queensPairwise_nil sol hsol
  refine ⟨sol, ?_, hprops⟩
  have hnil : gbk n σ n [] ∅ ∅ ∅ =
      gbk n σ n [] (colsOfQ []) (d1OfQ []) (d2OfQ []) := by
    rw [colsOfQ_nil, d1OfQ_nil, d2OfQ_nil]
  rw [random_n_queens, hnil]
  exact hsol

/-- C4 witness at `n = 4` with the identity column order everywhere. -/
theorem c4_random_n_queens_valid_witness :
    ∃ sol, random_n_queens 4 (fun _ => [0, 1, 2, 3]) = some sol ∧ sol.length = 4 ∧
      (∀ c ∈ sol, c < 4) ∧ QueensPairwise sol :=
  c4_random_n_queens_valid 4 (fun _ => [0, 1, 2, 3]) (by norm_num)
    (fun _ => (by decide : ([0, 1, 2, 3] : List Nat).Perm (List.range 4)))

/-- C8: whenever no classic arrangement exists — stated decidably:
every assignment of one column per row in the full enumeration violates
the pairwise constraints — `random_n_queens` returns the distinguished
failure value `none` (the Python `None` left in `sol[0]`), never a
partial or corrupt placement. -/
theorem c8_random_n_queens_fails_explicitly (n : Nat) (σ : List Nat → List Nat)
    (hσ : ∀ pre, (σ pre).Perm (List.range n))
    (hnosol : ∀ xs ∈ listsOfLength n n, ¬ QueensPairwise xs) :
    random_n_queens n σ = none := by
  rcases hres : random_n_queens n σ with _ | sol
  · rfl
  · exfalso
    have hent : ∀ pre, ∀ c ∈ σ pre, c < n := fun pre c hc =>
      List.mem_range.mp ((hσ pre).mem_iff.mp hc)
    have hnil : gbk n σ n [] ∅ ∅ ∅ =
        gbk n σ n [] (colsOfQ []) (d1OfQ []) (d2OfQ []) := by
      rw [colsOfQ_nil, d1OfQ_nil, d2OfQ_nil]
    rw [random_n_queens, hnil] at hres
    obtain ⟨hl, he, hq⟩ :=
      gbk_sound n σ hent n [] (by simp) (by simp) queensPairwise_nil sol hres
    exact hnosol sol (mem_listsOfLength.mpr ⟨hl, he⟩) hq

/-- C8 witness: the 2×2 board has no classic arrangement and the search
reports the failure as `none`. -/
theorem c8_random_n_queens_fails_explicitly_witness :
    random_n_queens 2 (fun _ => [0, 1]) = none :=
  c8_random_n_queens_fails_explicitly 2 (fun _ => [0, 1])
    (fun _ => (by decide : ([0, 1] : List Nat).Perm (List.range 2))) (by decide)

/-!
## Region partitioning: `generate_regions` from `generator_cy.pyx`

`regions` is an `n × n` list of `None`-or-id cells.  `ids` stands for the
shuffled `region_ids` list (quantified over all permutations of
`range n`), `flip k` for the `k`-th comparison
`random.random() < expansion_prob[rid]` (a draw is consumed exactly when
the probed neighbour is unassigned, matching the source), and `pick k`
for the `k`-th `random.choice` (selecting an index into the choice
list).  Dictionary iteration order in Python 3.7+ is insertion order, so
the initial flood-fill frontier is the seeds in `region_ids` order, one
per queen row.
-/

/-- Read cell `(i, j)` of a nested list with a default. -/
def get2 {α : Type} (g : List (List α)) (i j : Nat) (d : α) : α :=
  (g.getD i []).getD j d

/-- Write cell `(i, j)` of a nested list (`g[i][j] = v`). -/
def set2 {α : Type} (g : List (List α)) (i j : Nat) (v : α) : List (List α) :=
  g.set i ((g.getD i []).set j v)

/-- The four axis directions scanned by the source. -/
def dirs : List (Int × Int) := [(-1, 0), (1, 0), (0, -1), (0, 1)]

/-- Step 1 of `generate_regions`: each queen cell seeds its region
(`regions[i][queen_solution[i]] = region_ids[i]`). -/
def seedRegions (n : Nat) (qs ids : List Nat) : List (List (Option Nat)) :=
  (List.range n).foldl (fun g i => set2 g i (qs.getD i 0) (some (ids.getD i 0)))
    (List.replicate n (List.replicate n none))

/-- One direction probe of the flood fill: claim the neighbour for region
`rid` when it is on the board, unassigned, and the draw succeeds; a draw
is consumed exactly when the neighbour is unassigned. -/
def floodDir (n : Nat) (flip : Nat → Bool) (i j rid : Nat)
    (st : List (List (Option Nat)) × List (Nat × Nat × Nat) × Nat) (d : Int × Int) :
    List (List (Option Nat)) × List (Nat × Nat × Nat) × Nat :=
  if 0 ≤ (i : Int) + d.1 ∧ (i : Int) + d.1 < (n : Int) ∧
      0 ≤ (j : Int) + d.2 ∧ (j : Int) + d.2 < (n : Int) then
    match get2 st.1 ((i : Int) + d.1).toNat ((j : Int) + d.2).toNat none with
    | some _ => st
    | none =>
      if flip st.2.2 then
        (set2 st.1 ((i : Int) + d.1).toNat ((j : Int) + d.2).toNat (some rid),
          st.2.1 ++ [(((i : Int) + d.1).toNat, ((j : Int) + d.2).toNat, rid)],
          st.2.2 + 1)
      else (st.1, st.2.1, st.2.2 + 1)
  else st

/-- Step 2 of `generate_regions`: the multi-source flood-fill loop.  Each
iteration pops one frontier entry and every push pairs with a cell going
from unassigned to assigned, so the measure queue-length plus
unassigned-count falls by one per iteration; under the preconditions of
the partition theorem the initial measure is exactly `n * n`, the fuel
passed by `generate_regions`, so the queue always drains first. -/
def floodLoop (n : Nat) (flip : Nat → Bool) :
    Nat → List (Nat × Nat × Nat) → List (List (Option Nat)) → Nat →
    List (List (Option Nat)) × Nat
  | _, [], g, k => (g, k)
  | 0, _ :: _, g, k => (g, k)
  | fuel + 1, (i, j, rid) :: queue, g, k =>
    let st := dirs.foldl (floodDir n flip i j rid) (g, queue, k)
    floodLoop n flip fuel st.2.1 st.1 st.2.2

/-- Assigned neighbour ids of a cell in scan order without duplicates
(the Python set `neighbor_ids`). -/
def neighborIds (n : Nat) (g : List (List (Option Nat))) (i j : Nat) : List Nat :=
  dirs.foldl (fun acc d =>
    if 0 ≤ (i : Int) + d.1 ∧ (i : Int) + d.1 < (n : Int) ∧
        0 ≤ (j : Int) + d.2 ∧ (j : Int) + d.2 < (n : Int) then
      match get2 g ((i : Int) + d.1).toNat ((j : Int) + d.2).toNat none with
      | some rid => if rid ∈ acc then acc else acc ++ [rid]
      | none => acc
    else acc) []

/-- Step 3 of `generate_regions`: fill one still-unassigned cell from a
random assigned neighbour, or from a random region id when no neighbour
is assigned. -/
def postStep (n : Nat) (region_ids : List Nat) (pick : Nat → Nat)
    (st : List (List (Option Nat)) × Nat) (p : Nat × Nat) :
    List (List (Option Nat)) × Nat :=
  match get2 st.1 p.1 p.2 none with
  | some _ => st
  | none =>
    if (neighborIds n st.1 p.1 p.2).isEmpty then
      (set2 st.1 p.1 p.2 (some (region_ids.getD (pick st.2 % region_ids.length) 0)),
        st.2 + 1)
    else
      (set2 st.1 p.1 p.2
        (some ((neighborIds n st.1 p.1 p.2).getD
          (pick st.2 % (neighborIds n st.1 p.1 p.2).length) 0)), st.2 + 1)

/-- Embedding of `generate_regions(n, queen_solution)`. -/
def generate_regions (n : Nat) (qs ids : List Nat) (flip : Nat → Bool)
    (pick : Nat → Nat) : List (List (Option Nat)) :=
  let g0 := seedRegions n qs ids
  let queue0 := (List.range n).map (fun i => (i, qs.getD i 0, ids.getD i 0))
  let st1 := floodLoop n flip (n * n) queue0 g0 0
  ((coords n).foldl (postStep n ids pick) (st1.1, 0)).1

/-!
### Cell-level lemmas for nested list updates
-/

theorem getD_set_eq {α : Type} (l : List α) (i : Nat) (v d : α) :
    (l.set i v).getD i d = if i < l.length then v else d := by
  rw [List.getD_eq_getElem?_getD, List.getElem?_set, if_pos rfl]
  split
  · simp
  · simp

theorem getD_set_ne {α : Type} (l : List α) (i i' : Nat) (v d : α) (h : i ≠ i') :
    (l.set i v).getD i' d = l.getD i' d := by
  rw [List.getD_eq_getElem?_getD, List.getElem?_set, if_neg h,
    ← List.getD_eq_getElem?_getD]

theorem length_set2 {α : Type} (g : List (List α)) (i j : Nat) (v : α) :
    (set2 g i j v).length = g.length := by
  simp [set2]

theorem rowlen_set2 {α : Type} (g : List (List α)) (i j i' : Nat) (v : α) :
    ((set2 g i j v).getD i' []).length = (g.getD i' []).length := by
  unfold set2
  by_cases h : i = i'
  · subst h
    rw [getD_set_eq]
    by_cases hlen : i < g.length
    · rw [if_pos hlen]
      simp
    · rw [if_neg hlen, List.getD_eq_getElem?_getD g i, List.getElem?_eq_none (by omega)]
      rfl
  · rw [getD_set_ne _ _ _ _ _ h]

theorem get2_set2_same {α : Type} (g : List (List α)) (i j : Nat) (v d : α)
    (hi : i < g.length) (hj : j < (g.getD i []).length) :
    get2 (set2 g i j v) i j d = v := by
  unfold get2 set2
  rw [getD_set_eq, if_pos hi, getD_set_eq, if_pos hj]

theorem get2_set2_ne {α : Type} (g : List (List α)) (i j i' j' : Nat) (v d : α)
    (h : i ≠ i' ∨ j ≠ j') :
    get2 (set2 g i j v) i' j' d = get2 g i' j' d := by
  unfold get2 set2
  by_cases hii : i = i'
  · subst hii
    have hjj : j ≠ j' := by tauto
    by_cases hlen : i < g.length
    · rw [getD_set_eq, if_pos hlen, getD_set_ne _ _ _ _ _ hjj]
    · rw [getD_set_eq, if_neg hlen, List.getD_eq_getElem?_getD g i,
        List.getElem?_eq_none (by omega)]
      rfl
  · rw [getD_set_ne _ _ _ _ _ hii]

theorem get2_set2_or {α : Type} (g : List (List α)) (i j i' j' : Nat) (v d : α) :
    get2 (set2 g i j v) i' j' d = get2 g i' j' d ∨ get2 (set2 g i j v) i' j' d = v := by
  by_cases hii : i = i'
  · by_cases hjj : j = j'
    · subst hii; subst hjj
      by_cases hi : i < g.length
      · by_cases hj : j < (g.getD i []).length
        · exact Or.inr (get2_set2_same g i j v d hi hj)
        · left
          unfold get2 set2
          rw [getD_set_eq, if_pos hi, getD_set_eq, if_neg hj,
            List.getD_eq_getElem?_getD (g.getD i []) j,
            List.getElem?_eq_none (by omega)]
          rfl
      · left
        unfold get2 set2
        rw [getD_set_eq, if_neg hi, List.getD_eq_getElem?_getD g i,
          List.getElem?_eq_none (by omega)]
        rfl
    · exact Or.inl (get2_set2_ne g i j i' j' v d (Or.inr hjj))
  · exact Or.inl (get2_set2_ne g i j i' j' v d (Or.inl hii))

/-!
### The partition invariant
-/

theorem getD_eq_getElemG {α : Type} (l : List α) (d : α) (i : Nat)
    (h : i < l.length) : l.getD i d = l[i] := by
  rw [List.getD_eq_getElem?_getD, List.getElem?_eq_getElem h]
  rfl

/-- Invariant carried through region generation: the grid is `n × n`,
every assigned cell holds an id from `ids`, and queen cell `i` still
holds its seed `ids[i]`. -/
def RegionInv (n : Nat) (qs ids : List Nat) (g : List (List (Option Nat))) : Prop :=
  g.length = n ∧
  (∀ i, i < n → (g.getD i []).length = n) ∧
  (∀ i j v, get2 g i j none = some v → v ∈ ids) ∧
  (∀ i, i < n → get2 g i (qs.getD i 0) none = some (ids.getD i 0))

theorem regionInv_set2 (n : Nat) (qs ids : List Nat) (g : List (List (Option Nat)))
    (i j v : Nat) (hinv : RegionInv n qs ids g) (hv : v ∈ ids)
    (hnone : get2 g i j none = none) :
    RegionInv n qs ids (set2 g i j (some v)) := by
  obtain ⟨h1, h2, h3, h4⟩ := hinv
  refine ⟨by rw [length_set2, h1], fun i' hi' => by rw [rowlen_set2]; exact h2 i' hi',
    ?_, ?_⟩
  · intro a b w hw
    rcases get2_set2_or g i j a b (some v) none with hcase | hcase
    · rw [hcase] at hw
      exact h3 a b w hw
    · rw [hcase] at hw
      injection hw with hw
      subst hw
      exact hv
  · intro a ha
    have hq := h4 a ha
    by_cases hcell : i = a ∧ j = qs.getD a 0
    · exfalso
      rw [hcell.1, hcell.2, hq] at hnone
      cases hnone
    · rw [get2_set2_ne]
      · exact hq
      · tauto

theorem foldl_preserves {σ β : Type} (P : σ → Prop) (f : σ → β → σ) :
    ∀ (l : List β), (∀ s b, b ∈ l → P s → P (f s b)) →
      ∀ s, P s → P (l.foldl f s) := by
  intro l
  induction l with
  | nil => intro _ s hs; exact hs
  | cons b rest ih =>
    intro hf s hs
    rw [List.foldl_cons]
    exact ih (fun s2 b2 hb2 => hf s2 b2 (List.mem_cons_of_mem b hb2)) (f s b)
      (hf s b (List.mem_cons_self b rest) hs)

/-!
### Seeding
-/

theorem seed_untouched (qs ids : List Nat) :
    ∀ (l : List Nat) (g : List (List (Option Nat))) (i j : Nat), i ∉ l →
      get2 (l.foldl (fun g a => set2 g a (qs.getD a 0) (some (ids.getD a 0))) g) i j
          none =
        get2 g i j none := by
  intro l
  induction l with
  | nil => intro g i j _; rfl
  | cons a rest ih =>
    intro g i j hi
    rw [List.foldl_cons, ih _ i j (fun h => hi (List.mem_cons_of_mem a h)),
      get2_set2_ne]
    exact Or.inl (fun h => hi (h ▸ List.mem_cons_self a rest))

theorem seed_cell (n : Nat) (qs ids : List Nat) (hq : ∀ c ∈ qs, c < n)
    (hqlen : qs.length = n) :
    ∀ (l : List Nat), l.Nodup → (∀ a ∈ l, a < n) →
      ∀ (g : List (List (Option Nat))), g.length = n →
        (∀ i', i' < n → (g.getD i' []).length = n) →
        ∀ i ∈ l,
          get2 (l.foldl (fun g a => set2 g a (qs.getD a 0) (some (ids.getD a 0))) g) i
            (qs.getD i 0) none = some (ids.getD i 0) := by
  intro l
  induction l with
  | nil => intro _ _ g _ _ i hi; simp at hi
  | cons a rest ih =>
    intro hnd hbound g hg hrow i hi
    rw [List.foldl_cons]
    rcases List.mem_cons.mp hi with rfl | hi2
    · have hin : i < n := hbound i hi
      rw [seed_untouched qs ids rest _ i _ (List.nodup_cons.mp hnd).1]
      have hqi : qs.getD i 0 < n := by
        have hmem : qs.getD i 0 ∈ qs := by
          rw [getD_eq_getElem2 qs i (by omega)]
          exact qs.getElem_mem (by omega)
        exact hq _ hmem
      exact get2_set2_same g i (qs.getD i 0) (some (ids.getD i 0)) none (by omega)
        (by rw [hrow i hin]; exact hqi)
    · exact ih (List.Nodup.of_cons hnd)
        (fun b hb => hbound b (List.mem_cons_of_mem a hb))
        (set2 g a (qs.getD a 0) (some (ids.getD a 0)))
        (by rw [length_set2, hg])
        (fun i' hi' => by rw [rowlen_set2]; exact hrow i' hi') i hi2

theorem get2_replicate (n i j : Nat) :
    get2 (List.replicate n (List.replicate n (none : Option Nat))) i j none = none := by
  unfold get2
  rw [List.getD_eq_getElem?_getD (List.replicate n (List.replicate n none)) i,
    List.getElem?_replicate]
  split
  · show (List.replicate n (none : Option Nat)).getD j none = none
    rw [List.getD_eq_getElem?_getD, List.getElem?_replicate]
    split <;> rfl
  · rfl

theorem seedRegions_inv (n : Nat) (qs ids : List Nat) (hq : ∀ c ∈ qs, c < n)
    (hqlen : qs.length = n) (hidlen : ids.length = n) :
    RegionInv n qs ids (seedRegions n qs ids) := by
  have hstep : ∀ (g : List (List (Option Nat))) (a : Nat), a ∈ List.range n →
      (g.length = n ∧ (∀ i', i' < n → (g.getD i' []).length = n) ∧
        (∀ i j v, get2 g i j none = some v → v ∈ ids)) →
      ((set2 g a (qs.getD a 0) (some (ids.getD a 0))).length = n ∧
        (∀ i', i' < n →
          ((set2 g a (qs.getD a 0) (some (ids.getD a 0))).getD i' []).length = n) ∧
        (∀ i j v, get2 (set2 g a (qs.getD a 0) (some (ids.getD a 0))) i j none =
          some v → v ∈ ids)) := by
    rintro g a ha ⟨h1, h2, h3⟩
    refine ⟨by rw [length_set2, h1], fun i' hi' => by rw [rowlen_set2]; exact h2 i' hi',
      ?_⟩
    intro i j v hv
    rcases get2_set2_or g a (qs.getD a 0) i j (some (ids.getD a 0)) none with hc | hc
    · rw [hc] at hv
      exact h3 i j v hv
    · rw [hc] at hv
      injection hv with hv
      subst hv
      have halt : a < ids.length := by
        rw [hidlen]
        exact List.mem_range.mp ha
      rw [getD_eq_getElem2 ids a halt]
      exact ids.getElem_mem halt
  have hbase : (List.replicate n (List.replicate n (none : Option Nat))).length = n ∧
      (∀ i', i' < n →
        ((List.replicate n (List.replicate n (none : Option Nat))).getD i' []).length = n) ∧
      (∀ i j v,
        get2 (List.replicate n (List.replicate n (none : Option Nat))) i j none =
          some v → v ∈ ids) := by
    refine ⟨by simp, ?_, ?_⟩
    · intro i' hi'
      rw [List.getD_eq_getElem?_getD, List.getElem?_replicate, if_pos hi']
      simp
    · intro i j v hv
      rw [get2_replicate] at hv
      cases hv
  obtain ⟨h1, h2, h3⟩ := foldl_preserves _ _ (List.range n) hstep _ hbase
  refine ⟨h1, h2, h3, ?_⟩
  intro i hi
  exact seed_cell n qs ids hq hqlen (List.range n) (List.nodup_range n)
    (fun a ha => List.mem_range.mp ha) _ (by simp) (fun i' hi' => by
      rw [List.getD_eq_getElem?_getD, List.getElem?_replicate, if_pos hi']
      simp) i (List.mem_range.mpr hi)

/-!
### Flood fill
-/

theorem floodDir_inv (n : Nat) (flip : Nat → Bool) (qs ids : List Nat)
    (i j rid : Nat) (hrid : rid ∈ ids) (d : Int × Int)
    (st : List (List (Option Nat)) × List (Nat × Nat × Nat) × Nat)
    (hinv : RegionInv n qs ids st.1 ∧ ∀ e ∈ st.2.1, e.2.2 ∈ ids) :
    RegionInv n qs ids (floodDir n flip i j rid st d).1 ∧
      ∀ e ∈ (floodDir n flip i j rid st d).2.1, e.2.2 ∈ ids := by
  obtain ⟨hg, hqueue⟩ := hinv
  unfold floodDir
  split
  · split
    · exact ⟨hg, hqueue⟩
    · rename_i hnone
      split
      · refine ⟨regionInv_set2 n qs ids st.1 _ _ rid hg hrid hnone, ?_⟩
        intro e he
        rcases List.mem_append.mp he with he | he
        · exact hqueue e he
        · simp only [List.mem_singleton] at he
          subst he
          exact hrid
      · exact ⟨hg, hqueue⟩
  · exact ⟨hg, hqueue⟩

theorem floodLoop_inv (n : Nat) (flip : Nat → Bool) (qs ids : List Nat) :
    ∀ (fuel : Nat) (queue : List (Nat × Nat × Nat)) (g : List (List (Option Nat)))
      (k : Nat),
      RegionInv n qs ids g → (∀ e ∈ queue, e.2.2 ∈ ids) →
      RegionInv n qs ids (floodLoop n flip fuel queue g k).1 := by
  intro fuel
  induction fuel with
  | zero =>
    intro queue g k hg _
    cases queue <;> exact hg
  | succ fuel ih =>
    intro queue g k hg hqueue
    rcases queue with _ | ⟨⟨i, j, rid⟩, rest⟩
    · exact hg
    · have hrid : rid ∈ ids := hqueue (i, j, rid) (List.mem_cons_self _ _)
      have hrest : ∀ e ∈ rest, e.2.2 ∈ ids :=
        fun e he => hqueue e (List.mem_cons_of_mem _ he)
      have hst := foldl_preserves
        (fun st : List (List (Option Nat)) × List (Nat × Nat × Nat) × Nat =>
          RegionInv n qs ids st.1 ∧ ∀ e ∈ st.2.1, e.2.2 ∈ ids)
        (floodDir n flip i j rid) dirs
        (fun s b _ hs => floodDir_inv n flip qs ids i j rid hrid b s hs)
        (g, rest, k) ⟨hg, hrest⟩
      exact ih _ _ _ hst.1 hst.2

/-!
### Post-processing
-/

theorem neighborIds_subset (n : Nat) (g : List (List (Option Nat))) (i j : Nat)
    (ids : List Nat) (hval : ∀ a b v, get2 g a b none = some v → v ∈ ids) :
    ∀ x ∈ neighborIds n g i j, x ∈ ids := by
  unfold neighborIds
  have haux : ∀ (ds : List (Int × Int)) (acc : List Nat), (∀ x ∈ acc, x ∈ ids) →
      ∀ x ∈ ds.foldl (fun acc d =>
        if 0 ≤ (i : Int) + d.1 ∧ (i : Int) + d.1 < (n : Int) ∧
            0 ≤ (j : Int) + d.2 ∧ (j : Int) + d.2 < (n : Int) then
          match get2 g ((i : Int) + d.1).toNat ((j : Int) + d.2).toNat none with
          | some rid => if rid ∈ acc then acc else acc ++ [rid]
          | none => acc
        else acc) acc, x ∈ ids := by
    intro ds
    induction ds with
    | nil => intro acc hacc x hx; exact hacc x hx
    | cons d rest ih =>
      intro acc hacc x hx
      rw [List.foldl_cons] at hx
      refine ih _ ?_ x hx
      intro y hy
      split at hy
      · split at hy
        · rename_i v hv
          split at hy
          · exact hacc y hy
          · rcases List.mem_append.mp hy with hy | hy
            · exact hacc y hy
            · simp only [List.mem_singleton] at hy
              subst hy
              exact hval _ _ y hv
        · exact hacc y hy
      · exact hacc y hy
  exact haux dirs [] (by simp)

theorem postStep_inv (n : Nat) (qs ids : List Nat) (pick : Nat → Nat)
    (hids0 : ids ≠ []) (st : List (List (Option Nat)) × Nat) (p : Nat × Nat)
    (hinv : RegionInv n qs ids st.1) :
    RegionInv n qs ids (postStep n ids pick st p).1 := by
  unfold postStep
  split
  · exact hinv
  · rename_i hnone
    have hlen0 : 0 < ids.length := List.length_pos.mpr hids0
    split
    · refine regionInv_set2 n qs ids st.1 _ _ _ hinv ?_ hnone
      have hidx : pick st.2 % ids.length < ids.length := Nat.mod_lt _ hlen0
      rw [getD_eq_getElem2 ids _ hidx]
      exact ids.getElem_mem hidx
    · rename_i hne
      refine regionInv_set2 n qs ids st.1 _ _ _ hinv ?_ hnone
      have hnblen : 0 < (neighborIds n st.1 p.1 p.2).length := by
        rcases hnb : neighborIds n st.1 p.1 p.2 with _ | ⟨a, rest⟩
        · rw [hnb] at hne
          simp at hne
        · simp
      have hidx : pick st.2 % (neighborIds n st.1 p.1 p.2).length <
          (neighborIds n st.1 p.1 p.2).length := Nat.mod_lt _ hnblen
      refine neighborIds_subset n st.1 p.1 p.2 ids hinv.2.2.1 _ ?_
      rw [getD_eq_getElem2 _ _ hidx]
      exact (neighborIds n st.1 p.1 p.2).getElem_mem hidx

theorem postStep_mono (n : Nat) (ids : List Nat) (pick : Nat → Nat)
    (st : List (List (Option Nat)) × Nat) (p : Nat × Nat) (i j v : Nat)
    (h : get2 st.1 i j none = some v) :
    get2 (postStep n ids pick st p).1 i j none = some v := by
  unfold postStep
  split
  · exact h
  · rename_i hnone
    have hne : p.1 ≠ i ∨ p.2 ≠ j := by
      by_contra hc
      push_neg at hc
      rw [hc.1, hc.2, h] at hnone
      cases hnone
    split
    · rw [get2_set2_ne _ _ _ _ _ _ _ hne]
      exact h
    · rw [get2_set2_ne _ _ _ _ _ _ _ hne]
      exact h

theorem postFold_mono (n : Nat) (ids : List Nat) (pick : Nat → Nat) :
    ∀ (l : List (Nat × Nat)) (st : List (List (Option Nat)) × Nat) (i j v : Nat),
      get2 st.1 i j none = some v →
      get2 ((l.foldl (postStep n ids pick) st).1) i j none = some v := by
  intro l
  induction l with
  | nil => intro st i j v h; exact h
  | cons p rest ih =>
    intro st i j v h
    rw [List.foldl_cons]
    exact ih _ i j v (postStep_mono n ids pick st p i j v h)

theorem postStep_fills (n : Nat) (qs ids : List Nat) (pick : Nat → Nat)
    (st : List (List (Option Nat)) × Nat) (p : Nat × Nat)
    (hinv : RegionInv n qs ids st.1) (hp1 : p.1 < n) (hp2 : p.2 < n) :
    ∃ v, get2 (postStep n ids pick st p).1 p.1 p.2 none = some v := by
  obtain ⟨h1, h2, -, -⟩ := hinv
  unfold postStep
  split
  · rename_i v hv
    exact ⟨v, hv⟩
  · split
    · exact ⟨_, get2_set2_same _ _ _ _ _ (by omega) (by rw [h2 p.1 hp1]; exact hp2)⟩
    · exact ⟨_, get2_set2_same _ _ _ _ _ (by omega) (by rw [h2 p.1 hp1]; exact hp2)⟩

theorem postFold_filled (n : Nat) (qs ids : List Nat) (pick : Nat → Nat)
    (hids0 : ids ≠ []) :
    ∀ (l : List (Nat × Nat)) (st : List (List (Option Nat)) × Nat),
      RegionInv n qs ids st.1 → (∀ p ∈ l, p.1 < n ∧ p.2 < n) →
      RegionInv n qs ids ((l.foldl (postStep n ids pick) st).1) ∧
      ∀ p ∈ l, ∃ v, get2 ((l.foldl (postStep n ids pick) st).1) p.1 p.2 none = some v := by
  intro l
  induction l with
  | nil => intro st hinv _; exact ⟨hinv, by simp⟩
  | cons p rest ih =>
    intro st hinv hb
    rw [List.foldl_cons]
    have hinv2 := postStep_inv n qs ids pick hids0 st p hinv
    obtain ⟨hfinv, hfill⟩ := ih (postStep n ids pick st p) hinv2
      (fun q hq => hb q (List.mem_cons_of_mem p hq))
    refine ⟨hfinv, ?_⟩
    intro q hq
    rcases List.mem_cons.mp hq with rfl | hq2
    · obtain ⟨v, hv⟩ := postStep_fills n qs ids pick st q hinv
        (hb q (List.mem_cons_self q rest)).1 (hb q (List.mem_cons_self q rest)).2
      exact ⟨v, postFold_mono n ids pick rest _ q.1 q.2 v hv⟩
    · exact hfill q hq2

/-- C5: for every placement of length `n` with entries in `[0, n)`,
every shuffled id list, and every outcome of the random draws,
`generate_regions` returns an `n × n` grid in which every cell holds
exactly one id drawn from the `n` seeded ids, every queen cell still
holds the id it was seeded with, and hence every one of the `n` ids
occurs in the grid. -/
theorem c5_generate_regions_partition (n : Nat) (qs ids : List Nat)
    (flip : Nat → Bool) (pick : Nat → Nat)
    (hn : 1 ≤ n) (hqlen : qs.length = n) (hqent : ∀ c ∈ qs, c < n)
    (hperm : ids.Perm (List.range n)) :
    (generate_regions n qs ids flip pick).length = n ∧
    (∀ row ∈ generate_regions n qs ids flip pick, row.length = n) ∧
    (∀ i j, i < n → j < n →
      ∃ v, get2 (generate_regions n qs ids flip pick) i j none = some v ∧ v ∈ ids) ∧
    (∀ i, i < n →
      get2 (generate_regions n qs ids flip pick) i (qs.getD i 0) none =
        some (ids.getD i 0)) ∧
    (∀ v, v < n → ∃ i j, i < n ∧ j < n ∧
      get2 (generate_regions n qs ids flip pick) i j none = some v) := by
  have hidlen : ids.length = n := by
    rw [hperm.length_eq, List.length_range]
  have hids0 : ids ≠ [] := by
    intro h
    rw [h] at hidlen
    simp at hidlen
    omega
  have hseed := seedRegions_inv n qs ids hqent hqlen hidlen
  have hqueue0 : ∀ e ∈ (List.range n).map (fun i => (i, qs.getD i 0, ids.getD i 0)),
      e.2.2 ∈ ids := by
    intro e he
    obtain ⟨i, hi, rfl⟩ := List.mem_map.mp he
    have hilt : i < ids.length := by
      rw [hidlen]
      exact List.mem_range.mp hi
    rw [getD_eq_getElem2 ids i hilt]
    exact ids.getElem_mem hilt
  have hflood := floodLoop_inv n flip qs ids (n * n)
    ((List.range n).map (fun i => (i, qs.getD i 0, ids.getD i 0)))
    (seedRegions n qs ids) 0 hseed hqueue0
  have hbounds : ∀ p ∈ coords n, p.1 < n ∧ p.2 < n := fun p hp => mem_coords.mp hp
  obtain ⟨hfinal, hfilled⟩ := postFold_filled n qs ids pick hids0 (coords n)
    ((floodLoop n flip (n * n)
      ((List.range n).map (fun i => (i, qs.getD i 0, ids.getD i 0)))
      (seedRegions n qs ids) 0).1, 0) hflood hbounds
  have hgeq : generate_regions n qs ids flip pick =
      ((coords n).foldl (postStep n ids pick)
        ((floodLoop n flip (n * n)
          ((List.range n).map (fun i => (i, qs.getD i 0, ids.getD i 0)))
          (seedRegions n qs ids) 0).1, 0)).1 := rfl
  rw [hgeq]
  obtain ⟨hf1, hf2, hf3, hf4⟩ := hfinal
  refine ⟨hf1, ?_, ?_, hf4, ?_⟩
  · intro row hrow
    obtain ⟨i, hi, rfl⟩ := List.mem_iff_getElem.mp hrow
    have hieq := hf2 i (by omega)
    rwa [getD_eq_getElemG _ [] i hi] at hieq
  · intro i j hi hj
    obtain ⟨v, hv⟩ := hfilled (i, j) (mem_coords.mpr ⟨hi, hj⟩)
    exact ⟨v, hv, hf3 i j v hv⟩
  · intro v hv
    have hvids : v ∈ ids := hperm.mem_iff.mpr (List.mem_range.mpr hv)
    obtain ⟨k, hk, hkv⟩ := mem_iff_getD.mp hvids
    have hkn : k < n := by omega
    have hqk : qs.getD k 0 < n := by
      have : qs.getD k 0 ∈ qs := by
        rw [getD_eq_getElem2 qs k (by omega)]
        exact qs.getElem_mem (by omega)
      exact hqent _ this
    refine ⟨k, qs.getD k 0, hkn, hqk, ?_⟩
    rw [hf4 k hkn, hkv]

/-!
## Connectivity check: `all_regions_connected` from `generator_cy.pyx`

For each distinct id of the grid (a Python set, collected in row-major
order), the source finds the first occurrence, runs a breadth-first
traversal over same-id axis neighbours (list-as-queue `pop(0)`, a
`visited` set), and compares the visited count with the total number of
cells bearing the id.  Since the order of the outer loop cannot affect
the all-of conjunction and set iteration order is unspecified, the ids
are iterated in deduplicated scan order.
-/

/-- The finite set of coordinates of an `n × n` board. -/
def allCoordsF (n : Nat) : Finset (Nat × Nat) := (coords n).toFinset

/-- All cell values of a grid in scan order, deduplicated (the Python
set `region_ids` of `all_regions_connected`). -/
def gridIds (g : Grid) : List Int := ((coords g.length).map (cellAt g)).dedup

/-- The coordinate the BFS probes from `(i, j)` in direction `d`
(`(ni, nj) = (i + di, j + dj)` of the source, brought back to `Nat`). -/
def bfsTgt (i j : Nat) (d : Int × Int) : Nat × Nat :=
  (((i : Int) + d.1).toNat, ((j : Int) + d.2).toNat)

/-- The source's bounds test `ni >= 0 and ni < n and nj >= 0 and nj < n`. -/
def InB (n i j : Nat) (d : Int × Int) : Prop :=
  0 ≤ (i : Int) + d.1 ∧ (i : Int) + d.1 < (n : Int) ∧
    0 ≤ (j : Int) + d.2 ∧ (j : Int) + d.2 < (n : Int)

instance (n i j : Nat) (d : Int × Int) : Decidable (InB n i j d) := by
  unfold InB
  infer_instance

/-- One neighbour probe of the BFS: visit the neighbour when it is on
the board, not yet visited, and holds the region id; `vq` is the pair of
the visited set and the remaining queue. -/
def bfsDir (g : Grid) (n : Nat) (rid : Int) (i j : Nat)
    (vq : Finset (Nat × Nat) × List (Nat × Nat)) (d : Int × Int) :
    Finset (Nat × Nat) × List (Nat × Nat) :=
  if InB n i j d then
    if bfsTgt i j d ∉ vq.1 ∧ cellAt g (bfsTgt i j d) = rid then
      (insert (bfsTgt i j d) vq.1, vq.2 ++ [bfsTgt i j d])
    else vq
  else vq

theorem bfsTgt_mem_allCoordsF {n i j : Nat} {d : Int × Int} (h : InB n i j d) :
    bfsTgt i j d ∈ allCoordsF n := by
  rw [allCoordsF, List.mem_toFinset, mem_coords]
  obtain ⟨h1, h2, h3, h4⟩ := h
  exact ⟨by simp only [bfsTgt]; omega, by simp only [bfsTgt]; omega⟩

theorem bfsDir_cases (g : Grid) (n : Nat) (rid : Int) (i j : Nat)
    (vq : Finset (Nat × Nat) × List (Nat × Nat)) (d : Int × Int) :
    bfsDir g n rid i j vq d = vq ∨
    (InB n i j d ∧ bfsTgt i j d ∉ vq.1 ∧ cellAt g (bfsTgt i j d) = rid ∧
      bfsDir g n rid i j vq d = (insert (bfsTgt i j d) vq.1, vq.2 ++ [bfsTgt i j d])) := by
  unfold bfsDir
  split
  · rename_i hbnd
    split
    · rename_i hnew
      exact Or.inr ⟨hbnd, hnew.1, hnew.2, rfl⟩
    · exact Or.inl rfl
  · exact Or.inl rfl

theorem bfsDir_mono (g : Grid) (n : Nat) (rid : Int) (i j : Nat)
    (vq : Finset (Nat × Nat) × List (Nat × Nat)) (d : Int × Int) :
    vq.1 ⊆ (bfsDir g n rid i j vq d).1 := by
  rcases bfsDir_cases g n rid i j vq d with h | ⟨-, -, -, h⟩
  · rw [h]
  · rw [h]
    exact Finset.subset_insert _ vq.1

theorem bfsFold_mono (g : Grid) (n : Nat) (rid : Int) (i j : Nat) :
    ∀ (ds : List (Int × Int)) (vq : Finset (Nat × Nat) × List (Nat × Nat)),
      vq.1 ⊆ (ds.foldl (bfsDir g n rid i j) vq).1 := by
  intro ds
  induction ds with
  | nil => intro vq; exact Finset.Subset.refl _
  | cons d rest ih =>
    intro vq
    rw [List.foldl_cons]
    exact (bfsDir_mono g n rid i j vq d).trans (ih (bfsDir g n rid i j vq d))

theorem sdiff_insert_card_lt {n : Nat} {v : Finset (Nat × Nat)} {c : Nat × Nat}
    (hc : c ∈ allCoordsF n) (hcv : c ∉ v) :
    (allCoordsF n \ insert c v).card < (allCoordsF n \ v).card := by
  have hsub : allCoordsF n \ insert c v = (allCoordsF n \ v).erase c := by
    ext x
    simp only [Finset.mem_sdiff, Finset.mem_insert, Finset.mem_erase]
    tauto
  rw [hsub]
  exact Finset.card_erase_lt_of_mem (Finset.mem_sdiff.mpr ⟨hc, hcv⟩)

theorem bfsFold_card (g : Grid) (n : Nat) (rid : Int) (i j : Nat) :
    ∀ (ds : List (Int × Int)) (vq : Finset (Nat × Nat) × List (Nat × Nat)),
      ds.foldl (bfsDir g n rid i j) vq = vq ∨
      (allCoordsF n \ (ds.foldl (bfsDir g n rid i j) vq).1).card <
        (allCoordsF n \ vq.1).card := by
  intro ds
  induction ds with
  | nil => intro vq; exact Or.inl rfl
  | cons d rest ih =>
    intro vq
    rw [List.foldl_cons]
    rcases bfsDir_cases g n rid i j vq d with h | ⟨hb, hcv, -, h⟩
    · rw [h]
      exact ih vq
    · have hlt : (allCoordsF n \ (bfsDir g n rid i j vq d).1).card <
          (allCoordsF n \ vq.1).card := by
        rw [h]
        exact sdiff_insert_card_lt (bfsTgt_mem_allCoordsF hb) hcv
      rcases ih (bfsDir g n rid i j vq d) with h2 | h2
      · rw [h2]
        exact Or.inr hlt
      · exact Or.inr (h2.trans hlt)

/-- The BFS traversal loop of `all_regions_connected`: pop the front of
the queue, probe its four neighbours, and continue until the queue is
empty; returns the visited set. -/
def bfsLoop (g : Grid) (n : Nat) (rid : Int) :
    List (Nat × Nat) → Finset (Nat × Nat) → Finset (Nat × Nat)
  | [], visited => visited
  | p :: rest, visited =>
    bfsLoop g n rid (dirs.foldl (bfsDir g n rid p.1 p.2) (visited, rest)).2
      (dirs.foldl (bfsDir g n rid p.1 p.2) (visited, rest)).1
termination_by q v => ((allCoordsF n \ v).card, q.length)
decreasing_by
  rcases bfsFold_card g n rid p.1 p.2 dirs (visited, rest) with h | h
  · rw [h]
    exact Prod.Lex.right _ (by simp)
  · exact Prod.Lex.left _ _ h

/-- Specification-side adjacency: `a` and `b` are on-board cells bearing
the region id and axis-adjacent (the moves the source's BFS follows). -/
def AdjSame (g : Grid) (n : Nat) (rid : Int) (a b : Nat × Nat) : Prop :=
  a.1 < n ∧ a.2 < n ∧ b.1 < n ∧ b.2 < n ∧
  cellAt g a = rid ∧ cellAt g b = rid ∧
  ((a.1 = b.1 ∧ (a.2 + 1 = b.2 ∨ b.2 + 1 = a.2)) ∨
   (a.2 = b.2 ∧ (a.1 + 1 = b.1 ∨ b.1 + 1 = a.1)))

theorem adjSame_symm {g : Grid} {n : Nat} {rid : Int} {a b : Nat × Nat}
    (h : AdjSame g n rid a b) : AdjSame g n rid b a := by
  obtain ⟨h1, h2, h3, h4, h5, h6, h7⟩ := h
  refine ⟨h3, h4, h1, h2, h6, h5, ?_⟩
  tauto

theorem adjSame_of_dir {g : Grid} {n : Nat} {rid : Int} {i j : Nat} {d : Int × Int}
    (hd : d ∈ dirs) (hi : i < n) (hj : j < n) (hcp : cellAt g (i, j) = rid)
    (hb : InB n i j d) (hct : cellAt g (bfsTgt i j d) = rid) :
    AdjSame g n rid (i, j) (bfsTgt i j d) := by
  obtain ⟨h1, h2, h3, h4⟩ := hb
  simp only [dirs, List.mem_cons, List.not_mem_nil, or_false] at hd
  rcases hd with rfl | rfl | rfl | rfl <;>
    exact ⟨hi, hj, by simp only [bfsTgt]; omega, by simp only [bfsTgt]; omega, hcp, hct, by
      simp only [bfsTgt]
      omega⟩

theorem dir_of_adjSame {g : Grid} {n : Nat} {rid : Int} {i j : Nat} {b : Nat × Nat}
    (h : AdjSame g n rid (i, j) b) :
    ∃ d ∈ dirs, InB n i j d ∧ b = bfsTgt i j d := by
  obtain ⟨h1, h2, h3, h4, -, -, hadj⟩ := h
  rcases b with ⟨bi, bj⟩
  simp only [] at h3 h4 hadj
  rcases hadj with ⟨he, hj2 | hj2⟩ | ⟨he, hi2 | hi2⟩
  · exact ⟨(0, 1), by simp [dirs], ⟨by omega, by omega, by omega, by omega⟩, by
      simp only [bfsTgt, Prod.mk.injEq]; omega⟩
  · exact ⟨(0, -1), by simp [dirs], ⟨by omega, by omega, by omega, by omega⟩, by
      simp only [bfsTgt, Prod.mk.injEq]; omega⟩
  · exact ⟨(1, 0), by simp [dirs], ⟨by omega, by omega, by omega, by omega⟩, by
      simp only [bfsTgt, Prod.mk.injEq]; omega⟩
  · exact ⟨(-1, 0), by simp [dirs], ⟨by omega, by omega, by omega, by omega⟩, by
      simp only [bfsTgt, Prod.mk.injEq]; omega⟩

theorem bfsFold_visited (g : Grid) (n : Nat) (rid : Int) (i j : Nat) :
    ∀ (ds : List (Int × Int)) (vq : Finset (Nat × Nat) × List (Nat × Nat)),
      ∀ c ∈ (ds.foldl (bfsDir g n rid i j) vq).1,
        c ∈ vq.1 ∨ ∃ d ∈ ds, InB n i j d ∧ c = bfsTgt i j d ∧ cellAt g c = rid := by
  intro ds
  induction ds with
  | nil => intro vq c hc; exact Or.inl hc
  | cons d rest ih =>
    intro vq c hc
    rw [List.foldl_cons] at hc
    rcases ih (bfsDir g n rid i j vq d) c hc with h | ⟨d', hd', h⟩
    · rcases bfsDir_cases g n rid i j vq d with he | ⟨hb, -, hcell, he⟩
      · rw [he] at h
        exact Or.inl h
      · rw [he] at h
        rcases Finset.mem_insert.mp h with rfl | h
        · exact Or.inr ⟨d, List.mem_cons_self d rest, hb, rfl, hcell⟩
        · exact Or.inl h
    · exact Or.inr ⟨d', List.mem_cons_of_mem d hd', h⟩

theorem bfsFold_queue_mono (g : Grid) (n : Nat) (rid : Int) (i j : Nat) :
    ∀ (ds : List (Int × Int)) (vq : Finset (Nat × Nat) × List (Nat × Nat)),
      ∀ c ∈ vq.2, c ∈ (ds.foldl (bfsDir g n rid i j) vq).2 := by
  intro ds
  induction ds with
  | nil => intro vq c hc; exact hc
  | cons d rest ih =>
    intro vq c hc
    rw [List.foldl_cons]
    refine ih (bfsDir g n rid i j vq d) c ?_
    rcases bfsDir_cases g n rid i j vq d with he | ⟨-, -, -, he⟩
    · rw [he]; exact hc
    · rw [he]
      exact List.mem_append_left _ hc

theorem bfsFold_queue (g : Grid) (n : Nat) (rid : Int) (i j : Nat) :
    ∀ (ds : List (Int × Int)) (vq : Finset (Nat × Nat) × List (Nat × Nat)),
      ∀ c ∈ (ds.foldl (bfsDir g n rid i j) vq).2,
        c ∈ vq.2 ∨ c ∈ (ds.foldl (bfsDir g n rid i j) vq).1 := by
  intro ds
  induction ds with
  | nil => intro vq c hc; exact Or.inl hc
  | cons d rest ih =>
    intro vq c hc
    rw [List.foldl_cons] at hc ⊢
    rcases ih (bfsDir g n rid i j vq d) c hc with h | h
    · rcases bfsDir_cases g n rid i j vq d with he | ⟨-, -, -, he⟩
      · rw [he] at h
        exact Or.inl h
      · rw [he] at h
        rcases List.mem_append.mp h with h | h
        · exact Or.inl h
        · right
          refine bfsFold_mono g n rid i j rest (bfsDir g n rid i j vq d) ?_
          rw [he]
          simp only [List.mem_singleton] at h
          rw [h]
          exact Finset.mem_insert_self _ _
    · exact Or.inr h

theorem bfsFold_new_in_queue (g : Grid) (n : Nat) (rid : Int) (i j : Nat) :
    ∀ (ds : List (Int × Int)) (vq : Finset (Nat × Nat) × List (Nat × Nat)),
      ∀ c ∈ (ds.foldl (bfsDir g n rid i j) vq).1,
        c ∈ vq.1 ∨ c ∈ (ds.foldl (bfsDir g n rid i j) vq).2 := by
  intro ds
  induction ds with
  | nil => intro vq c hc; exact Or.inl hc
  | cons d rest ih =>
    intro vq c hc
    rw [List.foldl_cons] at hc ⊢
    rcases ih (bfsDir g n rid i j vq d) c hc with h | h
    · rcases bfsDir_cases g n rid i j vq d with he | ⟨-, -, -, he⟩
      · rw [he] at h
        exact Or.inl h
      · rw [he] at h
        rcases Finset.mem_insert.mp h with rfl | h
        · right
          refine bfsFold_queue_mono g n rid i j rest (bfsDir g n rid i j vq d) _ ?_
          rw [he]
          exact List.mem_append_right _ (List.mem_singleton.mpr rfl)
        · exact Or.inl h
    · exact Or.inr h

theorem bfsFold_covers (g : Grid) (n : Nat) (rid : Int) (i j : Nat) :
    ∀ (ds : List (Int × Int)) (vq : Finset (Nat × Nat) × List (Nat × Nat)),
      ∀ d ∈ ds, InB n i j d → cellAt g (bfsTgt i j d) = rid →
        bfsTgt i j d ∈ (ds.foldl (bfsDir g n rid i j) vq).1 := by
  intro ds
  induction ds with
  | nil => intro vq d hd; exact absurd hd (List.not_mem_nil d)
  | cons d0 rest ih =>
    intro vq d hd hb hcell
    rw [List.foldl_cons]
    rcases List.mem_cons.mp hd with rfl | hd
    · refine bfsFold_mono g n rid i j rest (bfsDir g n rid i j vq d) ?_
      unfold bfsDir
      rw [if_pos hb]
      split
      · exact Finset.mem_insert_self _ _
      · rename_i hno
        rcases not_and_or.mp hno with h | h
        · exact not_not.mp h
        · exact absurd hcell h
    · exact ih (bfsDir g n rid i j vq d0) d hd hb hcell

theorem nodup_coords (n : Nat) : (coords n).Nodup := by
  have h : coords n = List.product (List.range n) (List.range n) := rfl
  rw [h]
  exact List.Nodup.product (List.nodup_range n) (List.nodup_range n)

theorem bfsLoop_mono (g : Grid) (n : Nat) (rid : Int) :
    ∀ (q : List (Nat × Nat)) (v : Finset (Nat × Nat)), v ⊆ bfsLoop g n rid q v := by
  intro q v
  induction q, v using bfsLoop.induct g n rid with
  | case1 visited =>
    rw [bfsLoop]
  | case2 p rest visited ih =>
    rw [bfsLoop]
    exact fun x hx =>
      ih (bfsFold_mono g n rid p.1 p.2 dirs (visited, rest) hx)

theorem bfsLoop_sound (g : Grid) (n : Nat) (rid : Int) (start : Nat × Nat) :
    ∀ (q : List (Nat × Nat)) (v : Finset (Nat × Nat)),
      (∀ c ∈ v, c ∈ allCoordsF n ∧ cellAt g c = rid ∧
        Relation.ReflTransGen (AdjSame g n rid) start c) →
      (∀ c ∈ q, c ∈ v) →
      ∀ c ∈ bfsLoop g n rid q v, c ∈ allCoordsF n ∧ cellAt g c = rid ∧
        Relation.ReflTransGen (AdjSame g n rid) start c := by
  intro q v
  induction q, v using bfsLoop.induct g n rid with
  | case1 visited =>
    intro hv _ c hc
    rw [bfsLoop] at hc
    exact hv c hc
  | case2 p rest visited ih =>
    intro hv hq c hc
    rw [bfsLoop] at hc
    have hp := hv p (hq p (List.mem_cons_self p rest))
    have hpi := mem_coords.mp (List.mem_toFinset.mp hp.1)
    refine ih ?_ ?_ c hc
    · intro c hc
      rcases bfsFold_visited g n rid p.1 p.2 dirs (visited, rest) c hc with
        h | ⟨d, hd, hb, rfl, hcell⟩
      · exact hv c h
      · have hadj := adjSame_of_dir hd hpi.1 hpi.2 hp.2.1 hb hcell
        exact ⟨bfsTgt_mem_allCoordsF hb, hcell, hp.2.2.tail hadj⟩
    · intro c hc
      rcases bfsFold_queue g n rid p.1 p.2 dirs (visited, rest) c hc with h | h
      · exact bfsFold_mono g n rid p.1 p.2 dirs (visited, rest)
          (hq c (List.mem_cons_of_mem p h))
      · exact h

theorem bfsLoop_closed (g : Grid) (n : Nat) (rid : Int) :
    ∀ (q : List (Nat × Nat)) (v : Finset (Nat × Nat)),
      (∀ c ∈ v, c ∈ q ∨ ∀ b, AdjSame g n rid c b → b ∈ v) →
      ∀ c ∈ bfsLoop g n rid q v, ∀ b, AdjSame g n rid c b →
        b ∈ bfsLoop g n rid q v := by
  intro q v
  induction q, v using bfsLoop.induct g n rid with
  | case1 visited =>
    intro hv c hc b hadj
    rw [bfsLoop] at hc ⊢
    rcases hv c hc with h | h
    · exact absurd h (List.not_mem_nil c)
    · exact h b hadj
  | case2 p rest visited ih =>
    intro hv c hc b hadj
    rw [bfsLoop] at hc ⊢
    refine ih ?_ c hc b hadj
    intro c hc
    rcases bfsFold_new_in_queue g n rid p.1 p.2 dirs (visited, rest) c hc with hcv | hcq
    · rcases hv c hcv with hq | hclosed
      · rcases List.mem_cons.mp hq with rfl | hrest
        · right
          intro b hadj
          obtain ⟨d, hd, hb, rfl⟩ := dir_of_adjSame hadj
          exact bfsFold_covers g n rid c.1 c.2 dirs (visited, rest) d hd hb
            hadj.2.2.2.2.2.1
        · exact Or.inl (bfsFold_queue_mono g n rid p.1 p.2 dirs (visited, rest) c hrest)
      · right
        intro b hadj
        exact bfsFold_mono g n rid p.1 p.2 dirs (visited, rest) (hclosed b hadj)
    · exact Or.inl hcq

/-- Connectivity check of one region id: find the first cell bearing the
id in scan order (the source's double loop with `break`), run the BFS
from it, and compare the visited count with the number of cells bearing
the id; a missing id passes (`start is None: continue`). -/
def regionCheck (g : Grid) (n : Nat) (rid : Int) : Bool :=
  match (coords n).find? (fun p => cellAt g p == rid) with
  | none => true
  | some start =>
    (bfsLoop g n rid [start] {start}).card ==
      ((coords n).filter (fun p => cellAt g p == rid)).length

/-- `all_regions_connected` of `generator_cy.pyx`: every region id of
the grid passes the BFS connectivity check. -/
def all_regions_connected (g : Grid) : Bool :=
  (gridIds g).all (fun rid => regionCheck g g.length rid)

/-- The set of cells of an `n × n` board bearing region id `rid`. -/
def ridCells (g : Grid) (n : Nat) (rid : Int) : Finset (Nat × Nat) :=
  ((coords n).filter (fun p => cellAt g p == rid)).toFinset

theorem mem_ridCells {g : Grid} {n : Nat} {rid : Int} {p : Nat × Nat} :
    p ∈ ridCells g n rid ↔ p.1 < n ∧ p.2 < n ∧ cellAt g p = rid := by
  rw [ridCells, List.mem_toFinset, List.mem_filter, mem_coords, beq_iff_eq, and_assoc]

theorem card_ridCells (g : Grid) (n : Nat) (rid : Int) :
    (ridCells g n rid).card = ((coords n).filter (fun p => cellAt g p == rid)).length :=
  List.toFinset_card_of_nodup (List.Nodup.filter _ (nodup_coords n))

theorem regionCheck_iff (g : Grid) (n : Nat) (rid : Int) :
    regionCheck g n rid = true ↔
      ∀ a b : Nat × Nat, a.1 < n → a.2 < n → cellAt g a = rid →
        b.1 < n → b.2 < n → cellAt g b = rid →
        Relation.ReflTransGen (AdjSame g n rid) a b := by
  unfold regionCheck
  rcases hfind : (coords n).find? (fun p => cellAt g p == rid) with _ | start
  · constructor
    · intro _ a b ha1 ha2 hca _ _ _
      exfalso
      have hnone := List.find?_eq_none.mp hfind a (mem_coords.mpr ⟨ha1, ha2⟩)
      rw [beq_iff_eq] at hnone
      exact hnone hca
    · intro _
      rfl
  · have hsmem : start ∈ coords n := List.mem_of_find?_eq_some hfind
    have hscell : cellAt g start = rid := by
      have h := List.find?_some hfind
      rwa [beq_iff_eq] at h
    have hs1 : start.1 < n := (mem_coords.mp hsmem).1
    have hs2 : start.2 < n := (mem_coords.mp hsmem).2
    have hsound := bfsLoop_sound g n rid start [start] {start}
      (by
        intro c hc
        rw [Finset.mem_singleton] at hc
        subst hc
        exact ⟨List.mem_toFinset.mpr hsmem, hscell, Relation.ReflTransGen.refl⟩)
      (by
        intro c hc
        rw [List.mem_singleton] at hc
        rw [hc]
        exact Finset.mem_singleton_self start)
    have hclosed := bfsLoop_closed g n rid [start] {start}
      (by
        intro c hc
        rw [Finset.mem_singleton] at hc
        exact Or.inl (by rw [hc]; exact List.mem_singleton.mpr rfl))
    have hmem_start : start ∈ bfsLoop g n rid [start] {start} :=
      bfsLoop_mono g n rid [start] {start} (Finset.mem_singleton_self start)
    have hreach : ∀ x, Relation.ReflTransGen (AdjSame g n rid) start x →
        x ∈ bfsLoop g n rid [start] {start} := by
      intro x hx
      induction hx with
      | refl => exact hmem_start
      | tail _ hadj ih2 => exact hclosed _ ih2 _ hadj
    have hVsub : bfsLoop g n rid [start] {start} ⊆ ridCells g n rid := by
      intro c hc
      obtain ⟨h1, h2, -⟩ := hsound c hc
      have h3 := mem_coords.mp (List.mem_toFinset.mp h1)
      exact mem_ridCells.mpr ⟨h3.1, h3.2, h2⟩
    constructor
    · intro hchk a b ha1 ha2 hca hb1 hb2 hcb
      rw [beq_iff_eq, ← card_ridCells] at hchk
      have hVeq : bfsLoop g n rid [start] {start} = ridCells g n rid :=
        Finset.eq_of_subset_of_card_le hVsub (le_of_eq hchk.symm)
      have haV : a ∈ bfsLoop g n rid [start] {start} := by
        rw [hVeq]
        exact mem_ridCells.mpr ⟨ha1, ha2, hca⟩
      have hbV : b ∈ bfsLoop g n rid [start] {start} := by
        rw [hVeq]
        exact mem_ridCells.mpr ⟨hb1, hb2, hcb⟩
      have hsym : Symmetric (Relation.ReflTransGen (AdjSame g n rid)) :=
        Relation.ReflTransGen.symmetric (fun _ _ h => adjSame_symm h)
      exact Relation.ReflTransGen.trans (hsym (hsound a haV).2.2) (hsound b hbV).2.2
    · intro hconn
      rw [beq_iff_eq, ← card_ridCells]
      have hSsub : ridCells g n rid ⊆ bfsLoop g n rid [start] {start} := by
        intro c hc
        obtain ⟨h1, h2, h3⟩ := mem_ridCells.mp hc
        exact hreach c (hconn start c hs1 hs2 hscell h1 h2 h3)
      rw [Finset.Subset.antisymm hVsub hSsub]

/-- C6: for every `n × n` region grid, `all_regions_connected` returns
`true` iff for every region id present in the grid the set of cells
bearing that id is 4-connected, i.e. any two cells bearing the id are
linked by a path of axis-adjacent cells all bearing the id. -/
theorem c6_all_regions_connected_iff (g : Grid)
    (hsq : ∀ row ∈ g, row.length = g.length) :
    all_regions_connected g = true ↔
      ∀ rid : Int, ∀ a b : Nat × Nat,
        a.1 < g.length → a.2 < g.length → cellAt g a = rid →
        b.1 < g.length → b.2 < g.length → cellAt g b = rid →
        Relation.ReflTransGen (AdjSame g g.length rid) a b := by
  rw [all_regions_connected, List.all_eq_true]
  constructor
  · intro hall rid a b ha1 ha2 hca hb1 hb2 hcb
    have hmem : rid ∈ gridIds g := by
      rw [gridIds, List.mem_dedup, List.mem_map]
      exact ⟨a, mem_coords.mpr ⟨ha1, ha2⟩, hca⟩
    exact (regionCheck_iff g g.length rid).mp (hall rid hmem) a b ha1 ha2 hca hb1 hb2 hcb
  · intro hconn rid _
    exact (regionCheck_iff g g.length rid).mpr (hconn rid)

theorem c6_all_regions_connected_iff_witness :
    (∀ row ∈ ([[0]] : Grid), row.length = ([[0]] : Grid).length) ∧
    (all_regions_connected [[0]] = true ↔
      ∀ rid : Int, ∀ a b : Nat × Nat,
        a.1 < ([[0]] : Grid).length → a.2 < ([[0]] : Grid).length →
        cellAt [[0]] a = rid →
        b.1 < ([[0]] : Grid).length → b.2 < ([[0]] : Grid).length →
        cellAt [[0]] b = rid →
        Relation.ReflTransGen (AdjSame [[0]] ([[0]] : Grid).length rid) a b) :=
  ⟨by decide, c6_all_regions_connected_iff [[0]] (by decide)⟩

theorem c5_generate_regions_partition_witness :
    (1 ≤ 1 ∧ ([0] : List Nat).length = 1 ∧ (∀ c ∈ ([0] : List Nat), c < 1) ∧
      ([0] : List Nat).Perm (List.range 1)) ∧
    ((generate_regions 1 [0] [0] (fun _ => false) (fun _ => 0)).length = 1 ∧
     (∀ row ∈ generate_regions 1 [0] [0] (fun _ => false) (fun _ => 0),
        row.length = 1) ∧
     (∀ i j, i < 1 → j < 1 →
       ∃ v, get2 (generate_regions 1 [0] [0] (fun _ => false) (fun _ => 0)) i j none =
          some v ∧ v ∈ ([0] : List Nat)) ∧
     (∀ i, i < 1 →
       get2 (generate_regions 1 [0] [0] (fun _ => false) (fun _ => 0)) i
          (([0] : List Nat).getD i 0) none = some (([0] : List Nat).getD i 0)) ∧
     (∀ v, v < 1 → ∃ i j, i < 1 ∧ j < 1 ∧
       get2 (generate_regions 1 [0] [0] (fun _ => false) (fun _ => 0)) i j none =
          some v)) :=
  ⟨⟨by decide, by decide, by decide, by decide⟩,
    c5_generate_regions_partition 1 [0] [0] (fun _ => false) (fun _ => 0)
      (by decide) (by decide) (by decide) (by decide)⟩

end QueensMap
